import Mathlib

/-!
Verification development for the rvasm RISC-V assembler.

The definitions below are a shallow embedding of the program's source:

* src/arch.rs         -- BitRangeMap, InstructionField, InstructionFormat,
                         InstructionDefinition, RiscVSpec and its TOML loader
* src/emit/flatbin.rs -- the flat-binary emitter

Machine-integer conventions: u64 values are modelled as Nat taken modulo
2 to the 64; i32 and i64 values are modelled as Int, with the explicit
wrapping casts of the source (the "as i32", "as u64", "as usize" sites)
modelled by the helper functions below.  Shift amounts follow release-mode
semantics, i.e. the shift count is taken modulo the bit width.  Rust code
that can panic (slice indexing and unwrap) is modelled by Option.
-/

deriving instance DecidableEq for Except

namespace Rvasm

/-- Unordered map (Rust HashMap / BTreeMap) modelled as an association list
with unique keys; lookup returns the value of the first matching key. -/
def alGet {κ ν : Type} [DecidableEq κ] : List (κ × ν) → κ → Option ν
  | [], _ => none
  | (k', v) :: t, k => if k' = k then some v else alGet t k

/-- HashMap::insert: replaces the value at an existing key (returning the old
value, like the Rust API) or appends a fresh entry. -/
def alInsert {κ ν : Type} [DecidableEq κ] : List (κ × ν) → κ → ν → List (κ × ν) × Option ν
  | [], k, v => ([(k, v)], none)
  | (k', v') :: t, k, v =>
    if k' = k then ((k, v) :: t, some v')
    else
      let r := alInsert t k v
      ((k', v') :: r.1, r.2)

/-- HashMap::entry(k).or_insert_with(d): create the entry if absent. -/
def alEntryOr {κ ν : Type} [DecidableEq κ] (m : List (κ × ν)) (k : κ) (d : ν) : List (κ × ν) :=
  match alGet m k with
  | some _ => m
  | none => m ++ [(k, d)]

/-- In-place update of the value stored at a key (Rust get_mut + assignment). -/
def alModify {κ ν : Type} [DecidableEq κ] : List (κ × ν) → κ → (ν → ν) → List (κ × ν)
  | [], _, _ => []
  | (k', v') :: t, k, f => if k' = k then (k', f v') :: t else (k', v') :: alModify t k f

/-- Rust str::to_ascii_lowercase on one character. -/
def lowerChar (c : Char) : Char :=
  if c.isUpper then Char.ofNat (c.toNat + 32) else c

/-- Rust str::to_ascii_lowercase. -/
def toAsciiLower (s : String) : String :=
  ⟨s.data.map lowerChar⟩

/-- Rust str::parse to i32: optional sign, at least one ASCII digit,
rejecting values outside the i32 range. -/
def parseI32 (s : String) : Option Int :=
  let core : List Char → Int → Option Int := fun ds sign =>
    if ds = [] then none
    else if ds.all (fun c => c.isDigit) then
      let n : Nat := ds.foldl (fun a c => a * 10 + (c.toNat - 48)) 0
      let v : Int := sign * (n : Int)
      if -(2 ^ 31) ≤ v ∧ v < 2 ^ 31 then some v else none
    else none
  match s.data with
  | '+' :: t => core t 1
  | '-' :: t => core t (-1)
  | t => core t 1

/-- Rust cast from i64 to i32 (two's-complement wrap). -/
def asI32 (x : Int) : Int := (x + 2 ^ 31).emod (2 ^ 32) - 2 ^ 31

/-- Rust cast from a signed integer to u64 (two's-complement reinterpretation),
landing in Nat below 2 to the 64. -/
def asU64 (x : Int) : Nat := (x.emod (2 ^ 64)).toNat

/-- Rust cast from u64 to i64 (two's-complement reinterpretation). -/
def asI64 (n : Nat) : Int :=
  if n < 2 ^ 63 then (n : Int) else (n : Int) - 2 ^ 64

/-- Rust cast from i32 to usize on a 64-bit target (sign-extend then
reinterpret), landing in Nat below 2 to the 64. -/
def asUsize (x : Int) : Nat := (x.emod (2 ^ 64)).toNat

/-- Register from src/arch.rs. -/
structure Register where
  index : Int
  names : List String
  size_in_bits : Int
deriving DecidableEq, Repr, Inhabited

namespace Register

/-- Register::new. -/
def new (index : Int) : Register := ⟨index, [], 0⟩

/-- Register::get_main_name. -/
def get_main_name (r : Register) : Option String := r.names.get? 0

/-- Register::get_abi_name. -/
def get_abi_name (r : Register) : Option String :=
  (r.names.get? 1).orElse (fun _ => r.names.get? 0)

end Register

/-- BitRangeMap from src/arch.rs: bits [value_last:value_first] of a value map
onto instruction bits starting at instruction_first.  The fields are i32 in
the source, hence Int here. -/
structure BitRangeMap where
  value_last : Int
  value_first : Int
  instruction_first : Int
deriving DecidableEq, Repr, Inhabited

namespace BitRangeMap

/-- BitRangeMap::new. -/
def new (value_last value_first instruction_first : Int) : BitRangeMap :=
  ⟨value_last, value_first, instruction_first⟩

/-- BitRangeMap::instruction_last. -/
def instruction_last (m : BitRangeMap) : Int :=
  m.instruction_first + m.value_last - m.value_first

/-- BitRangeMap::value_bitmask.  The left shifts are u64 shifts: the shift
count is masked to six bits (release semantics, modelled by emod 64) and the
result wraps modulo 2 to the 64. -/
def value_bitmask (m : BitRangeMap) : Nat :=
  let value_len : Int := m.value_last - m.value_first + 1
  (((1 <<< (value_len.emod 64).toNat) - 1) <<< ((m.value_first.emod 64).toNat)) % (2 ^ 64)

end BitRangeMap

/-- One iteration body of the while loop of BitRangeMap::encode_into applied
to the byte at the cursor: clear the bits under the low mask byte, then OR in
the low value byte. -/
def encByte (enc_mask enc_value b : Nat) : Nat :=
  (b &&& (255 ^^^ (enc_mask &&& 255))) ||| (enc_value &&& 255)

/-- The while loop of BitRangeMap::encode_into.  The loop runs while the
working mask is nonzero; since the mask is a u64 it becomes zero after at
most eight right shifts by 8, so the callers pass 8 as fuel and the fuel
never runs out.  List.set and List.getD model the in-bounds slice accesses
of the source (the emitter pre-sizes the buffer). -/
def encodeLoop : Nat → Nat → Nat → Nat → List Nat → List Nat
  | 0, _, _, _, bytes => bytes
  | fuel + 1, enc_mask, enc_value, instr_byte, bytes =>
    if enc_mask = 0 then bytes
    else
      encodeLoop fuel (enc_mask >>> 8) (enc_value >>> 8) (instr_byte + 1)
        (bytes.set instr_byte (encByte enc_mask enc_value (bytes.getD instr_byte 0)))

/-- BitRangeMap::encode_into from src/arch.rs.  Shift counts follow release
semantics (count taken modulo the width); the u64 left shift at
instruction_first mod 8 wraps modulo 2 to the 64. -/
def BitRangeMap.encode_into (m : BitRangeMap) (bytes : List Nat) (value : Nat) : List Nat :=
  let vshift : Nat := (m.value_first.emod 64).toNat
  let enc_value0 : Nat := (value &&& m.value_bitmask) >>> vshift
  let enc_mask0 : Nat := m.value_bitmask >>> vshift
  let ifirst : Nat := asUsize m.instruction_first
  let instr_byte : Nat := ifirst / 8
  let enc_value : Nat := (enc_value0 <<< (ifirst % 8)) % (2 ^ 64)
  let enc_mask : Nat := (enc_mask0 <<< (ifirst % 8)) % (2 ^ 64)
  encodeLoop 8 enc_mask enc_value instr_byte bytes

/-- FieldType from src/arch.rs. -/
inductive FieldType where
  | Register
  | Value
deriving DecidableEq, Repr, Inhabited

/-- InstructionField from src/arch.rs. -/
structure InstructionField where
  name : String
  vtype : FieldType
  length : Int
  encoding : List BitRangeMap
deriving DecidableEq, Repr, Inhabited

/-- Rust Iterator::max combined with unwrap_or(0): the maximum of a list of
i32 values, defaulting to 0 on an empty list. -/
def iterMaxOr0 : List Int → Int
  | [] => 0
  | x :: t => t.foldl max x

/-- InstructionField::calculate_last_encoded_bit_index. -/
def InstructionField.calculate_last_encoded_bit_index (f : InstructionField) : Int :=
  iterMaxOr0 (f.encoding.map (fun e => e.instruction_last))

/-- InstructionFormat from src/arch.rs. -/
structure InstructionFormat where
  name : String
  fields : List InstructionField
  ilen : Nat
deriving DecidableEq, Repr, Inhabited

/-- InstructionFormat::calculate_last_encoded_bit_index. -/
def InstructionFormat.calculate_last_encoded_bit_index (f : InstructionFormat) : Int :=
  iterMaxOr0 (f.fields.map (fun e => e.calculate_last_encoded_bit_index))

/-- InstructionDefinition from src/arch.rs; args and fields hold usize
indices into the format's field list, field values are u64. -/
structure InstructionDefinition where
  name : String
  format_idx : Nat
  args : List Nat
  fields : List (Nat × Nat)
deriving DecidableEq, Repr, Inhabited

/-- RiscVSpec from src/arch.rs. -/
structure RiscVSpec where
  loaded_names : List String
  loaded_codes : List String
  loaded_specs : List String
  consts : List (String × Nat)
  registers : List (Int × Register)
  register_name_lookup : List (String × Int)
  instruction_formats : List InstructionFormat
  instructions : List InstructionDefinition
  instruction_name_lookup : List (String × Nat)
deriving DecidableEq, Repr

namespace RiscVSpec

/-- RiscVSpec::new / Default: everything empty. -/
def new : RiscVSpec := ⟨[], [], [], [], [], [], [], [], []⟩

/-- RiscVSpec::get_const. -/
def get_const (s : RiscVSpec) (name : String) : Option Nat :=
  alGet s.consts name

/-- RiscVSpec::get_register. -/
def get_register (s : RiscVSpec) (rnum : Int) : Option Register :=
  alGet s.registers rnum

/-- RiscVSpec::get_register_by_name. -/
def get_register_by_name (s : RiscVSpec) (rname : String) : Option Register :=
  (alGet s.register_name_lookup rname).bind (fun i => s.get_register i)

/-- RiscVSpec::get_instruction_format. -/
def get_instruction_format (s : RiscVSpec) (index : Nat) : Option InstructionFormat :=
  s.instruction_formats.get? index

/-- RiscVSpec::get_instruction. -/
def get_instruction (s : RiscVSpec) (index : Nat) : Option InstructionDefinition :=
  s.instructions.get? index

/-- RiscVSpec::get_instruction_by_name (converts the name to lowercase). -/
def get_instruction_by_name (s : RiscVSpec) (name : String) : Option InstructionDefinition :=
  (alGet s.instruction_name_lookup (toAsciiLower name)).bind (fun i => s.get_instruction i)

end RiscVSpec

/-- InstructionDefinition::encode_into from src/arch.rs: write the fixed
(field index, value) pairs first, then the operand values bound to args,
calling the bit-range encoder once per bit-range map.  The Rust function can
panic on a failed length assertion or an out-of-range field index; those
executions are modelled by none. -/
def encodeFieldPairs (fmt : InstructionFormat) :
    List (Nat × Nat) → List Nat → Option (List Nat)
  | [], bytes => some bytes
  | (fldid, fldval) :: t, bytes =>
    match fmt.fields.get? fldid with
    | none => none
    | some fld =>
      encodeFieldPairs fmt t
        (fld.encoding.foldl (fun b e => e.encode_into b fldval) bytes)

/-- InstructionDefinition::encode_into, see encodeFieldPairs. -/
def InstructionDefinition.encode_into (insn : InstructionDefinition) (bytes : List Nat)
    (spec : RiscVSpec) (argvals : List Nat) : Option (List Nat) :=
  if argvals.length = insn.args.length then
    match spec.get_instruction_format insn.format_idx with
    | none => none
    | some fmt =>
      match encodeFieldPairs fmt insn.fields bytes with
      | none => none
      | some bytes1 => encodeFieldPairs fmt (insn.args.zip argvals) bytes1
  else none

/-- LoadError from src/arch.rs (MalformedTOML omitted: text-level TOML
parsing is outside this model, which starts from parsed documents). -/
inductive LoadError where
  | RequirementNotFound (code : String)
  | ConstNotFound (name : String)
  | MissingNode (path : String)
  | BadType (path : String)
  | DuplicateInstruction (name : String)
  | BadInstructionFormat (path : String)
deriving DecidableEq, Repr

/-- A parsed TOML document (toml::Value): only the shapes the loader
inspects; Other covers values on which as_integer, as_str, as_table and
as_array all return None. -/
inductive Toml where
  | int (i : Int)
  | str (s : String)
  | table (kvs : List (String × Toml))
  | arr (vs : List Toml)
  | other

namespace Toml

/-- toml::Value::get on a table. -/
def get? : Toml → String → Option Toml
  | .table kvs, k => alGet kvs k
  | _, _ => none

/-- toml::Value::as_integer. -/
def asInteger : Toml → Option Int
  | .int i => some i
  | _ => none

/-- toml::Value::as_str. -/
def asStr : Toml → Option String
  | .str s => some s
  | _ => none

/-- toml::Value::as_table. -/
def asTable : Toml → Option (List (String × Toml))
  | .table kvs => some kvs
  | _ => none

/-- toml::Value::as_array. -/
def asArray : Toml → Option (List Toml)
  | .arr vs => some vs
  | _ => none

end Toml

/-- RiscVSpec::toml_int: accept an integer, or a string naming a known
constant (the u64 constant is cast to i64); otherwise BadType(key). -/
def toml_int (consts : List (String × Nat)) (key : String) (v : Toml) :
    Except LoadError Int :=
  match v.asInteger with
  | some i => .ok i
  | none =>
    match v.asStr with
    | some s =>
      match alGet consts s with
      | some x => .ok (asI64 x)
      | none => .error (.ConstNotFound s)
    | none => .error (.BadType key)

/-- Meta section of load_single_toml: push name, code and spec strings in
order, stopping (with the pushes made so far kept) at the first error. -/
def loadMeta (s : RiscVSpec) (doc : Toml) : RiscVSpec × Option LoadError :=
  match doc.get? "meta" with
  | none => (s, some (.MissingNode "meta"))
  | some meta =>
    match meta.get? "name" with
    | none => (s, some (.MissingNode "meta.name"))
    | some v =>
      match v.asStr with
      | none => (s, some (.BadType "meta.name"))
      | some nm =>
        let s := { s with loaded_names := s.loaded_names ++ [nm] }
        match meta.get? "code" with
        | none => (s, some (.MissingNode "meta.code"))
        | some v =>
          match v.asStr with
          | none => (s, some (.BadType "meta.code"))
          | some cd =>
            let s := { s with loaded_codes := s.loaded_codes ++ [cd] }
            match meta.get? "spec" with
            | none => (s, some (.MissingNode "meta.spec"))
            | some v =>
              match v.asStr with
              | none => (s, some (.BadType "meta.spec"))
              | some sp => ({ s with loaded_specs := s.loaded_specs ++ [sp] }, none)

/-- Requirement validation loop: every listed code must already be loaded. -/
def checkRequiresList (s : RiscVSpec) : List Toml → Option LoadError
  | [] => none
  | rq :: t =>
    match rq.asStr with
    | none => some (.BadType "meta.requires item")
    | some code =>
      if s.loaded_codes.contains code then checkRequiresList s t
      else some (.RequirementNotFound code)

/-- Requirement validation of load_single_toml (meta.requires is optional). -/
def checkRequires (s : RiscVSpec) (doc : Toml) : Option LoadError :=
  match (doc.get? "meta").bind (fun m => m.get? "requires") with
  | none => none
  | some requires =>
    match requires.asArray with
    | none => some (.BadType "meta.requires")
    | some list => checkRequiresList s list

/-- Consts section loop of load_single_toml: insert in iteration order, each
value resolved against the consts inserted so far. -/
def loadConstsList (s : RiscVSpec) : List (String × Toml) → RiscVSpec × Option LoadError
  | [] => (s, none)
  | (k, v) :: t =>
    match toml_int s.consts ("consts." ++ k) v with
    | .error e => (s, some e)
    | .ok intvalue =>
      loadConstsList { s with consts := (alInsert s.consts k (asU64 intvalue)).1 } t

/-- Consts section of load_single_toml. -/
def loadConsts (s : RiscVSpec) (doc : Toml) : RiscVSpec × Option LoadError :=
  match doc.get? "consts" with
  | none => (s, none)
  | some consts =>
    match consts.asTable with
    | none => (s, some (.BadType "consts"))
    | some kvs => loadConstsList s kvs

/-- Name-array elements of one registers.names entry. -/
def collectRegNames (msg : String) : List Toml → Except LoadError (List String)
  | [] => .ok []
  | name :: t =>
    match name.asStr with
    | none => .error (.BadType msg)
    | some nm =>
      match collectRegNames msg t with
      | .error e => .error e
      | .ok r => .ok (nm :: r)

/-- registers.names loop of load_single_toml: for each entry create the
register if needed, then replace its full name list. -/
def loadRegNamesList (s : RiscVSpec) : List (String × Toml) → RiscVSpec × Option LoadError
  | [] => (s, none)
  | (numberStr, names) :: t =>
    match parseI32 numberStr with
    | none => (s, some (.BadType ("registers.names." ++ numberStr ++ " key")))
    | some number =>
      match names.asArray with
      | none => (s, some (.BadType ("registers.names." ++ toString number ++ " value")))
      | some nameList =>
        let s := { s with registers := alEntryOr s.registers number (Register.new number) }
        match collectRegNames ("registers.names." ++ toString number ++ " element") nameList with
        | .error e => (s, some e)
        | .ok newnames =>
          loadRegNamesList
            { s with registers := alModify s.registers number (fun r => { r with names := newnames }) } t

/-- registers.lengths loop of load_single_toml. -/
def loadRegLengthsList (s : RiscVSpec) : List (String × Toml) → RiscVSpec × Option LoadError
  | [] => (s, none)
  | (numberStr, length) :: t =>
    match parseI32 numberStr with
    | none => (s, some (.BadType ("registers.lengths." ++ numberStr ++ " key")))
    | some number =>
      match toml_int s.consts ("registers.lengths." ++ toString number ++ " value") length with
      | .error e => (s, some e)
      | .ok len =>
        let s := { s with registers := alEntryOr s.registers number (Register.new number) }
        loadRegLengthsList
          { s with registers := alModify s.registers number (fun r => { r with size_in_bits := asI32 len }) } t

/-- registers.names block of load_single_toml. -/
def loadRegistersNames (s : RiscVSpec) (regtable : List (String × Toml)) :
    RiscVSpec × Option LoadError :=
  match alGet regtable "names" with
  | none => (s, none)
  | some register_names =>
    match register_names.asTable with
    | none => (s, some (.BadType "registers.names"))
    | some list => loadRegNamesList s list

/-- registers.lengths block of load_single_toml. -/
def loadRegistersLengths (s : RiscVSpec) (regtable : List (String × Toml)) :
    RiscVSpec × Option LoadError :=
  match alGet regtable "lengths" with
  | none => (s, none)
  | some register_lengths =>
    match register_lengths.asTable with
    | none => (s, some (.BadType "registers.lengths"))
    | some list => loadRegLengthsList s list

/-- Registers section of load_single_toml: the names block runs first, the
lengths block only when it succeeded. -/
def loadRegisters (s : RiscVSpec) (doc : Toml) : RiscVSpec × Option LoadError :=
  match doc.get? "registers" with
  | none => (s, none)
  | some registers =>
    match registers.asTable with
    | none => (s, some (.BadType "registers"))
    | some regtable =>
      match loadRegistersNames s regtable with
      | (s, some e) => (s, some e)
      | (s, none) => loadRegistersLengths s regtable

/-- One encoding triple list of an instruction-format field: sub-arrays must
have exactly three int-or-const entries. -/
def parseEncList (consts : List (String × Nat)) (fmtname fldname : String) :
    List Toml → Except LoadError (List BitRangeMap)
  | [] => .ok []
  | val :: t =>
    match val.asArray with
    | none =>
      .error (.BadType ("instruction_formats." ++ fmtname ++ "." ++ fldname ++ ".encoding[] element"))
    | some subenc =>
      match subenc with
      | [sv0, sv1, sv2] =>
        match toml_int consts ("instruction_formats." ++ fmtname ++ "." ++ fldname ++ ".encoding[][]") sv0 with
        | .error e => .error e
        | .ok vend =>
          match toml_int consts ("instruction_formats." ++ fmtname ++ "." ++ fldname ++ ".encoding[][]") sv1 with
          | .error e => .error e
          | .ok vbegin =>
            match toml_int consts ("instruction_formats." ++ fmtname ++ "." ++ fldname ++ ".encoding[][]") sv2 with
            | .error e => .error e
            | .ok ibegin =>
              match parseEncList consts fmtname fldname t with
              | .error e => .error e
              | .ok r => .ok (BitRangeMap.new (asI32 vend) (asI32 vbegin) (asI32 ibegin) :: r)
      | _ =>
        .error (.BadType ("instruction_formats." ++ fmtname ++ "." ++ fldname ++ ".encoding[][] length (must be 3)"))

/-- One field table of an instruction format. -/
def parseField (consts : List (String × Nat)) (fmtname fldname : String) (fldtable : Toml) :
    Except LoadError InstructionField :=
  match fldtable.asTable with
  | none => .error (.BadType ("instruction_formats." ++ fmtname ++ "." ++ fldname))
  | some fldtab =>
    match alGet fldtab "type" with
    | none => .error (.MissingNode ("instruction_formats." ++ fmtname ++ "." ++ fldname ++ ".type"))
    | some tv =>
      match tv.asStr with
      | none => .error (.BadType ("instruction_formats." ++ fmtname ++ "." ++ fldname ++ ".type"))
      | some fldtype =>
        match (if fldtype = "value" then some FieldType.Value
               else if fldtype = "register" then some FieldType.Register else none) with
        | none => .error (.BadType ("instruction_formats." ++ fmtname ++ "." ++ fldname ++ ".type"))
        | some vtype =>
          match alGet fldtab "length" with
          | none => .error (.MissingNode ("instruction_formats." ++ fmtname ++ "." ++ fldname ++ ".length"))
          | some lv =>
            match toml_int consts ("instruction_formats." ++ fmtname ++ "." ++ fldname ++ ".length") lv with
            | .error e => .error e
            | .ok len =>
              match alGet fldtab "encoding" with
              | none => .error (.MissingNode ("instruction_formats." ++ fmtname ++ "." ++ fldname ++ ".encoding"))
              | some ev =>
                match ev.asArray with
                | none => .error (.BadType ("instruction_formats." ++ fmtname ++ "." ++ fldname ++ ".encoding"))
                | some fldencoding =>
                  match parseEncList consts fmtname fldname fldencoding with
                  | .error e => .error e
                  | .ok encoding => .ok ⟨fldname, vtype, asI32 len, encoding⟩

/-- Field loop of one instruction-format table. -/
def parseFieldsList (consts : List (String × Nat)) (fmtname : String) :
    List (String × Toml) → Except LoadError (List InstructionField)
  | [] => .ok []
  | (fldname, fldtable) :: t =>
    match parseField consts fmtname fldname fldtable with
    | .error e => .error e
    | .ok fld =>
      match parseFieldsList consts fmtname t with
      | .error e => .error e
      | .ok r => .ok (fld :: r)

/-- instruction_formats loop of load_single_toml: parse the fields, set ilen
to the last encoded bit index (cast i32 to usize) plus one, and push. -/
def loadFormatsList (s : RiscVSpec) : List (String × Toml) → RiscVSpec × Option LoadError
  | [] => (s, none)
  | (fmtname, fmttable) :: t =>
    match fmttable.asTable with
    | none => (s, some (.BadType ("instruction_formats." ++ fmtname)))
    | some fldlist =>
      match parseFieldsList s.consts fmtname fldlist with
      | .error e => (s, some e)
      | .ok fields =>
        let fmt0 : InstructionFormat := ⟨fmtname, fields, 0⟩
        let fmt : InstructionFormat :=
          { fmt0 with ilen := (asUsize fmt0.calculate_last_encoded_bit_index + 1) % (2 ^ 64) }
        loadFormatsList { s with instruction_formats := s.instruction_formats ++ [fmt] } t

/-- instruction_formats section of load_single_toml. -/
def loadFormats (s : RiscVSpec) (doc : Toml) : RiscVSpec × Option LoadError :=
  match doc.get? "instruction_formats" with
  | none => (s, none)
  | some instruction_formats =>
    match instruction_formats.asTable with
    | none => (s, some (.BadType "instruction_formats"))
    | some list => loadFormatsList s list

/-- args array of one instruction: each string must name a field of the
instruction's format; the field indices are collected in order. -/
def parseArgsList (fmt : InstructionFormat) (iname : String) :
    List Toml → Except LoadError (List Nat)
  | [] => .ok []
  | argv :: t =>
    match argv.asStr with
    | none => .error (.BadType ("instructions." ++ iname ++ ".args[] item"))
    | some a =>
      match fmt.fields.findIdx? (fun x => x.name == a) with
      | none => .error (.BadInstructionFormat ("instructions." ++ iname ++ ".args[" ++ a ++ "]"))
      | some i =>
        match parseArgsList fmt iname t with
        | .error e => .error e
        | .ok r => .ok (i :: r)

/-- fields table of one instruction: each key must name a field of the
format; values go through toml_int and are cast to u64. -/
def parseInsnFields (consts : List (String × Nat)) (fmt : InstructionFormat) (iname : String) :
    List (String × Toml) → Except LoadError (List (Nat × Nat))
  | [] => .ok []
  | (fname, fv) :: t =>
    match toml_int consts ("instructions." ++ iname ++ ".fields[" ++ fname ++ "]") fv with
    | .error e => .error e
    | .ok v =>
      match fmt.fields.findIdx? (fun x => x.name == fname) with
      | none => .error (.BadInstructionFormat ("instructions." ++ iname ++ ".fields[" ++ fname ++ "]"))
      | some fi =>
        match parseInsnFields consts fmt iname t with
        | .error e => .error e
        | .ok r => .ok ((fi, asU64 v) :: r)

/-- Parse phase of one instructions entry of load_single_toml (iname is the
already-lowercased key): reads the spec but never mutates it, and every
error happens before the lookup insertion of the mutation phase. -/
def parseInstructionEntry (s : RiscVSpec) (iname : String) (itable : Toml) :
    Except LoadError InstructionDefinition :=
  match itable.asTable with
  | none => .error (.BadType ("instructions." ++ iname))
  | some itab =>
    match alGet itab "format" with
    | none => .error (.MissingNode ("instructions." ++ iname ++ ".format"))
    | some fv =>
      match fv.asStr with
      | none => .error (.BadType ("instructions." ++ iname ++ ".format"))
      | some iformat =>
        match alGet itab "args" with
        | none => .error (.MissingNode ("instructions." ++ iname ++ ".args"))
        | some av =>
          match av.asArray with
          | none => .error (.BadType ("instructions." ++ iname ++ ".args"))
          | some iargs =>
            match alGet itab "fields" with
            | none => .error (.MissingNode ("instructions." ++ iname ++ ".fields"))
            | some fvv =>
              match fvv.asTable with
              | none => .error (.BadType ("instructions." ++ iname ++ ".fields"))
              | some ifields =>
                match s.instruction_formats.findIdx? (fun x => x.name == iformat) with
                | none => .error (.BadInstructionFormat ("instructions." ++ iname ++ ".format"))
                | some format_idx =>
                  let fmt := (s.instruction_formats.get? format_idx).getD default
                  match parseArgsList fmt iname iargs with
                  | .error e => .error e
                  | .ok args =>
                    match parseInsnFields s.consts fmt iname ifields with
                    | .error e => .error e
                    | .ok fields => .ok ⟨iname, format_idx, args, fields⟩

/-- instructions loop of load_single_toml: names are lowercased on load; the
name is inserted into the lookup (pointing at the upcoming instructions
index) before the duplicate check, so a duplicate leaves the overwritten
lookup entry behind and pushes nothing. -/
def loadInstructionsList (s : RiscVSpec) : List (String × Toml) → RiscVSpec × Option LoadError
  | [] => (s, none)
  | (iname0, itable) :: t =>
    let iname := toAsciiLower iname0
    match parseInstructionEntry s iname itable with
    | .error e => (s, some e)
    | .ok insn =>
      let ins := alInsert s.instruction_name_lookup iname s.instructions.length
      let s1 : RiscVSpec := { s with instruction_name_lookup := ins.1 }
      if ins.2.isSome then (s1, some (.DuplicateInstruction iname))
      else loadInstructionsList { s1 with instructions := s1.instructions ++ [insn] } t

/-- instructions section of load_single_toml. -/
def loadInstructions (s : RiscVSpec) (doc : Toml) : RiscVSpec × Option LoadError :=
  match doc.get? "instructions" with
  | none => (s, none)
  | some instructions =>
    match instructions.asTable with
    | none => (s, some (.BadType "instructions"))
    | some list => loadInstructionsList s list

/-- Final step of load_single_toml: the register name lookup is cleared and
rebuilt from every name of every register. -/
def rebuildRegisterNameLookup (s : RiscVSpec) : RiscVSpec :=
  { s with register_name_lookup :=
      (s.registers.foldl
        (fun acc p => p.2.names.foldl (fun a n => (alInsert a n p.1).1) acc) []) }

/-- RiscVSpec::load_single_toml from src/arch.rs: the mutations made before
an error are kept, mirroring the &mut self receiver of the source. -/
def load_single_toml (s0 : RiscVSpec) (doc : Toml) : RiscVSpec × Option LoadError :=
  match loadMeta s0 doc with
  | (s1, some e) => (s1, some e)
  | (s1, none) =>
    match checkRequires s1 doc with
    | some e => (s1, some e)
    | none =>
      match loadConsts s1 doc with
      | (s2, some e) => (s2, some e)
      | (s2, none) =>
        match loadRegisters s2 doc with
        | (s3, some e) => (s3, some e)
        | (s3, none) =>
          match loadFormats s3 doc with
          | (s4, some e) => (s4, some e)
          | (s4, none) =>
            match loadInstructions s4 doc with
            | (s5, some e) => (s5, some e)
            | (s5, none) => (rebuildRegisterNameLookup s5, none)

/-- Modelled from the spec: the AST Node type of section 3 of the
specification.  The expression-AST module that defines this enum is not
present under src (the parser.rs provided there is an older token-tree
parser), but grammar.rs and emit/flatbin.rs, which are present, consume
exactly these variants; integers are u64 (Nat below 2 to the 64), register
indices are i32 (Int). -/
inductive Node where
  | Identifier (name : String)
  | Integer (value : Nat)
  | StringLiteral (bytes : List Nat)
  | Register (index : Int)
  | PcValue
  | Negation (x : Node)
  | Plus (x y : Node)
  | Minus (x y : Node)
  | Times (x y : Node)
  | Divide (x y : Node)
  | Shl (x y : Node)
  | Shr (x y : Node)
  | Ashr (x y : Node)
  | Label (name : String)
  | Argument (inner : Node)
  | Instruction (name : String) (args : List Node)
  | Root (nodes : List Node)
deriving Repr

/-- EmitError from src/emit/flatbin.rs. -/
inductive EmitError where
  | UnexpectedNodeType (text : String)
  | InvalidInstruction (name : String)
  | InvalidArgumentCount (name : String)
  | InvalidArgumentType (name : String) (pos : Nat)
  | InvalidEncoding (name : String)
deriving DecidableEq, Repr

/-- BinaryEmitState from src/emit/flatbin.rs. -/
structure BinaryEmitState where
  out_buf : List Nat
  out_pos : Nat
deriving DecidableEq, Repr

/-- BinaryEmitState::accomodate_bytes: advance the cursor by byte_count,
zero-filling any growth (Vec::resize), and report the byte range that the
returned mutable slice covered. -/
def accomodate_bytes (st : BinaryEmitState) (byte_count : Nat) :
    BinaryEmitState × Nat × Nat :=
  let start_pos := st.out_pos
  let end_pos := start_pos + byte_count
  let buf :=
    if st.out_buf.length < end_pos then
      st.out_buf ++ List.replicate (end_pos - st.out_buf.length) 0
    else st.out_buf
  (⟨buf, end_pos⟩, start_pos, end_pos)

/-- IALIGN in bytes, as computed at the top of emit_binary_recurse. -/
def ialign_bytes (spec : RiscVSpec) : Nat :=
  ((spec.get_const "IALIGN").getD 32 + 7) / 8

/-- ILEN in bytes, as computed at the top of emit_binary_recurse. -/
def max_ilen_bytes (spec : RiscVSpec) : Nat :=
  ((spec.get_const "ILEN").getD 32 + 7) / 8

/-- Argument-collection loop of the instruction branch of
emit_binary_recurse: each expected field type dictates the accepted node
shape.  The index pairs are (position, field index); a field index outside
the format's field list would be a Rust panic, modelled by none. -/
def collectArgv (fmt : InstructionFormat) (iname : String) :
    Nat → List (Nat × Node) → Option (Except EmitError (List Nat))
  | _, [] => some (.ok [])
  | i, (argidx, arg) :: t =>
    match fmt.fields.get? argidx with
    | none => none
    | some fld =>
      match fld.vtype with
      | .Value =>
        match arg with
        | .Argument (.Integer val) =>
          match collectArgv fmt iname (i + 1) t with
          | none => none
          | some (.error e) => some (.error e)
          | some (.ok r) => some (.ok (val :: r))
        | _ => some (.error (.InvalidArgumentType iname i))
      | .Register =>
        match arg with
        | .Argument (.Register rid) =>
          match collectArgv fmt iname (i + 1) t with
          | none => none
          | some (.error e) => some (.error e)
          | some (.ok r) => some (.ok (asU64 rid :: r))
        | _ => some (.error (.InvalidArgumentType iname i))

/-- Alignment step of the instruction branch of emit_binary_recurse: round
the cursor up to the next multiple of ialign_bytes, accommodating (and
thereby zero-filling only the growth of) the gap.  A zero ialign_bytes would
make the source panic (division by zero), modelled by none. -/
def alignCursor (spec : RiscVSpec) (st : BinaryEmitState) : Option BinaryEmitState :=
  let ia := ialign_bytes spec
  if ia = 0 then none
  else
    let aligned_pos := (st.out_pos + ia - 1) / ia * ia
    if st.out_pos ≠ aligned_pos then some (accomodate_bytes st (aligned_pos - st.out_pos)).1
    else some st

/-- Instruction branch of emit_binary_recurse (the .org directive and the
spec-defined instruction path).  The outer Option models Rust panics. -/
def emit_instruction (spec : RiscVSpec) (st : BinaryEmitState) (iname : String)
    (args : List Node) : Option (Except EmitError BinaryEmitState) :=
  if iname = ".org" ∨ iname = ".ORG" then
    if args.length ≠ 1 then some (.error (.InvalidArgumentCount iname))
    else
      match args.head? with
      | some (.Integer adr) =>
        let new_out_pos : Nat := adr
        let buf :=
          if new_out_pos > st.out_buf.length then
            st.out_buf ++ List.replicate (new_out_pos - st.out_buf.length) 0
          else st.out_buf
        some (.ok ⟨buf, new_out_pos⟩)
      | some _ => some (.error (.InvalidArgumentType iname 0))
      | none => none
  else
    match spec.get_instruction_by_name iname with
    | none => some (.error (.InvalidInstruction iname))
    | some specinsn =>
      match spec.get_instruction_format specinsn.format_idx with
      | none => none
      | some fmt =>
        if args.length ≠ specinsn.args.length then some (.error (.InvalidArgumentCount iname))
        else
          match collectArgv fmt iname 0 (specinsn.args.zip args) with
          | none => none
          | some (.error e) => some (.error e)
          | some (.ok argv) =>
            let ilen_bytes := (fmt.ilen + 7) / 8
            if ilen_bytes > max_ilen_bytes spec then some (.error (.InvalidEncoding iname))
            else
              match alignCursor spec st with
              | none => none
              | some st1 =>
                let acc := accomodate_bytes st1 ilen_bytes
                let st2 := acc.1
                let startp := acc.2.1
                let endp := acc.2.2
                let slice := (st2.out_buf.drop startp).take ilen_bytes
                match specinsn.encode_into slice spec argv with
                | none => none
                | some newslice =>
                  some (.ok ⟨(st2.out_buf.take startp) ++ newslice ++ st2.out_buf.drop endp,
                             st2.out_pos⟩)

mutual

/-- emit_binary_recurse from src/emit/flatbin.rs.  The outer Option models
Rust panics (none of which are reachable from well-formed specs). -/
def emit_binary_recurse (spec : RiscVSpec) (st : BinaryEmitState) :
    Node → Option (Except EmitError BinaryEmitState)
  | .Root nodes => emitNodeList spec st nodes
  | .Label _ => some (.ok st)
  | .Instruction iname args => emit_instruction spec st iname args
  | n => some (.error (.UnexpectedNodeType (reprStr n)))

/-- Child loop of the Root branch of emit_binary_recurse. -/
def emitNodeList (spec : RiscVSpec) (st : BinaryEmitState) :
    List Node → Option (Except EmitError BinaryEmitState)
  | [] => some (.ok st)
  | n :: t =>
    match emit_binary_recurse spec st n with
    | none => none
    | some (.error e) => some (.error e)
    | some (.ok st1) => emitNodeList spec st1 t

end

/-- emit_flat_binary from src/emit/flatbin.rs: run the recursion on an empty
state and keep only the byte buffer. -/
def emit_flat_binary (spec : RiscVSpec) (ast : Node) : Option (Except EmitError (List Nat)) :=
  match emit_binary_recurse spec ⟨[], 0⟩ ast with
  | none => none
  | some (.error e) => some (.error e)
  | some (.ok st) => some (.ok st.out_buf)

/-! Analysis-level definitions used to state the verified properties. -/

/-- Bit i of a byte buffer in the little-endian bit order of the encoder:
bit 0 is the least-significant bit of byte 0. -/
def bufBit (bytes : List Nat) (i : Nat) : Bool :=
  (bytes.getD (i / 8) 0).testBit (i % 8)

/-- A bit-range map together with its cleanliness conditions relative to a
buffer of numBytes bytes: the value range lies inside a u64, spans fewer
than 64 bits, survives the sub-byte left shift without truncation, and the
last targeted instruction bit is inside the buffer. -/
def CleanMap (m : BitRangeMap) (numBytes : Nat) : Prop :=
  0 ≤ m.value_first ∧ m.value_first ≤ m.value_last ∧ m.value_last ≤ 63 ∧
  0 ≤ m.instruction_first ∧ m.instruction_first < 2 ^ 31 ∧
  m.value_last.toNat - m.value_first.toNat + 1 ≤ 63 ∧
  m.value_last.toNat - m.value_first.toNat + 1 + m.instruction_first.toNat % 8 ≤ 64 ∧
  (m.instruction_first.toNat + (m.value_last.toNat - m.value_first.toNat)) / 8 < numBytes

instance (m : BitRangeMap) (n : Nat) : Decidable (CleanMap m n) := by
  unfold CleanMap
  infer_instance

/-- The value bit that a sequence of (map, value) pairs leaves at buffer bit
p, if any: the latest pair in the list whose target range contains p wins. -/
def coveringValue : List (BitRangeMap × Nat) → Nat → Option Bool
  | [], _ => none
  | (m, v) :: t, p =>
    match coveringValue t p with
    | some b => some b
    | none =>
      if m.instruction_first.toNat ≤ p ∧
          p ≤ m.instruction_first.toNat + (m.value_last.toNat - m.value_first.toNat) then
        some (v.testBit (m.value_first.toNat + (p - m.instruction_first.toNat)))
      else none

/-- Sequential application of the bit-range encoder to a list of
(map, value) pairs. -/
def encodePairs (pairs : List (BitRangeMap × Nat)) (bytes : List Nat) : List Nat :=
  pairs.foldl (fun b pr => pr.1.encode_into b pr.2) bytes

/-- The (map, value) pairs that a list of (field index, value) pairs expands
to against a format, in encoding order. -/
def fieldPairsOf (fmt : InstructionFormat) (l : List (Nat × Nat)) : List (BitRangeMap × Nat) :=
  l.flatMap (fun pr => ((fmt.fields.get? pr.1).getD default).encoding.map (fun m => (m, pr.2)))

/-- All bit-range maps of all fields of a format. -/
def formatMaps (f : InstructionFormat) : List BitRangeMap :=
  f.fields.flatMap (fun fld => fld.encoding)

/-- The ilen equation that the loader establishes for every format it
pushes. -/
def FormatIlenEq (f : InstructionFormat) : Prop :=
  f.ilen = (asUsize f.calculate_last_encoded_bit_index + 1) % (2 ^ 64)

/-- The specified ilen invariant, under the documented i32 range invariants
of the bit-range maps: ilen is one plus the largest targeted instruction bit
index (and 1 for a format without encoded bits). -/
def FormatIlenOk (f : InstructionFormat) : Prop :=
  (∀ m ∈ formatMaps f,
      0 ≤ m.value_first ∧ m.value_first ≤ m.value_last ∧ m.value_last < 2 ^ 31 ∧
      0 ≤ m.instruction_first ∧ m.instruction_first < 2 ^ 31) →
  (f.ilen : Int) = 1 + ((formatMaps f).map (fun m => m.instruction_last)).foldr max 0

/-- Structural invariant of the register table: every stored register
carries its own key as index, and keys are unique. -/
def RegInvariant (regs : List (Int × Register)) : Prop :=
  (∀ p ∈ regs, p.2.index = p.1) ∧ (regs.map Prod.fst).Nodup

/-- No two distinct registers share a name. -/
def PairwiseDisjointNames (regs : List (Int × Register)) : Prop :=
  ∀ p ∈ regs, ∀ q ∈ regs, p.1 ≠ q.1 → ∀ nm ∈ p.2.names, nm ∉ q.2.names

instance (regs : List (Int × Register)) : Decidable (RegInvariant regs) := by
  unfold RegInvariant
  infer_instance

instance (regs : List (Int × Register)) : Decidable (PairwiseDisjointNames regs) := by
  unfold PairwiseDisjointNames
  infer_instance

/-- The instruction entries of a document (empty when the section is absent
or not a table). -/
def instructionEntries (doc : Toml) : List (String × Toml) :=
  ((doc.get? "instructions").bind Toml.asTable).getD []

/-! Concrete documents used by the closed theorems below. -/

/-- A minimal valid meta section. -/
def rvDocMeta : String × Toml :=
  ("meta", .table [("name", .str "Test"), ("code", .str "TST"), ("spec", .str "v1")])

/-- Document with one empty instruction format. -/
def rvDocEmptyFormat : Toml := .table [rvDocMeta, ("instruction_formats", .table [("F", .table [])])]

/-- Document with one single-field 8-bit format. -/
def rvDocOneFormat : Toml := .table [rvDocMeta,
  ("instruction_formats", .table [("G", .table [("c", .table [("type", .str "value"),
    ("length", .int 8), ("encoding", .arr [.arr [.int 7, .int 0, .int 0]])])])])]

/-- Document giving registers 1 and 2 the same name. -/
def rvDocSharedRegName : Toml := .table [rvDocMeta,
  ("registers", .table [("names", .table [("1", .arr [.str "a"]), ("2", .arr [.str "a"])])])]

/-- Document giving registers 1 and 2 distinct names. -/
def rvDocTwoRegs : Toml := .table [rvDocMeta,
  ("registers", .table [("names", .table [("1", .arr [.str "ra"]), ("2", .arr [.str "sp"])])])]

/-- Document defining instructions ADD and add, distinct keys that collide
after lowercasing. -/
def rvDocCaseCollision : Toml := .table [rvDocMeta,
  ("instruction_formats", .table [("F", .table [])]),
  ("instructions", .table [
    ("ADD", .table [("format", .str "F"), ("args", .arr []), ("fields", .table [])]),
    ("add", .table [("format", .str "F"), ("args", .arr []), ("fields", .table [])])])]

/-- Document defining a single fresh instruction named NOP. -/
def rvDocFreshNop : Toml := .table [rvDocMeta,
  ("instruction_formats", .table [("F", .table [])]),
  ("instructions", .table [
    ("NOP", .table [("format", .str "F"), ("args", .arr []), ("fields", .table [])])])]

/-- Document with a 32-bit and an 8-bit instruction a and b. -/
def rvDocTwoInsns : Toml := .table [rvDocMeta,
  ("instruction_formats", .table [
    ("F32", .table [("c", .table [("type", .str "value"), ("length", .int 32),
       ("encoding", .arr [.arr [.int 31, .int 0, .int 0]])])]),
    ("F8", .table [("c", .table [("type", .str "value"), ("length", .int 8),
       ("encoding", .arr [.arr [.int 7, .int 0, .int 0]])])])]),
  ("instructions", .table [
    ("a", .table [("format", .str "F32"), ("args", .arr []),
       ("fields", .table [("c", .int 1048723)])]),
    ("b", .table [("format", .str "F8"), ("args", .arr []),
       ("fields", .table [("c", .int 19)])])])]

/-- Document with a format whose two fields overlap on instruction bits 2
and 3, an instruction fixing the first field and taking the second as its
only operand. -/
def rvDocOverlap : Toml := .table [rvDocMeta,
  ("instruction_formats", .table [("G", .table [
    ("f1", .table [("type", .str "value"), ("length", .int 4),
      ("encoding", .arr [.arr [.int 3, .int 0, .int 0]])]),
    ("f2", .table [("type", .str "value"), ("length", .int 4),
      ("encoding", .arr [.arr [.int 3, .int 0, .int 2]])])])]),
  ("instructions", .table [("ov", .table [("format", .str "G"), ("args", .arr [.str "f2"]),
    ("fields", .table [("f1", .int 15)])])])]

/-- Document defining instruction nop in format F. -/
def rvDocNopFirst : Toml := .table [rvDocMeta,
  ("instruction_formats", .table [("F", .table [])]),
  ("instructions", .table [("nop", .table [("format", .str "F"), ("args", .arr []),
    ("fields", .table [])])])]

/-- Document redefining nop (spelled NOP) against the already-loaded format
F. -/
def rvDocNopAgain : Toml := .table [rvDocMeta,
  ("instructions", .table [("NOP", .table [("format", .str "F"), ("args", .arr []),
    ("fields", .table [])])])]

/-- The spec of rvDocTwoInsns after loading. -/
def rvSpecTwoInsns : RiscVSpec := (load_single_toml RiscVSpec.new rvDocTwoInsns).1

/-- Emitter state after emitting the 32-bit instruction a and moving the
cursor back to 1: the buffer holds nonzero instruction bytes past the
cursor. -/
def rvStateAfterOrg : BinaryEmitState := ⟨[147, 0, 16, 0], 1⟩

/-! Helper lemmas: lists, association lists, lowercase. -/

theorem lgetD_oob (l : List Nat) (i : Nat) (h : l.length ≤ i) : l.getD i 0 = 0 := by
  simp [List.getD, List.getElem?_eq_none h]

theorem lgetD_append_left (l l2 : List Nat) (i : Nat) (h : i < l.length) :
    (l ++ l2).getD i 0 = l.getD i 0 := by
  simp [List.getD, List.getElem?_append_left h]

theorem lgetD_append_right (l l2 : List Nat) (i : Nat) (h : l.length ≤ i) :
    (l ++ l2).getD i 0 = l2.getD (i - l.length) 0 := by
  simp [List.getD, List.getElem?_append_right h]

theorem lgetD_replicate (n i : Nat) : (List.replicate n (0 : Nat)).getD i 0 = 0 := by
  rcases Nat.lt_or_ge i n with h | h
  · simp [List.getD, List.getElem?_replicate, h]
  · exact lgetD_oob _ _ (by simpa using h)

theorem lgetD_take (l : List Nat) (k i : Nat) (h : i < k) : (l.take k).getD i 0 = l.getD i 0 := by
  simp [List.getD, List.getElem?_take, h]

theorem lgetD_drop (l : List Nat) (k i : Nat) : (l.drop k).getD i 0 = l.getD (k + i) 0 := by
  simp [List.getD, List.getElem?_drop]

theorem lgetD_set_self (l : List Nat) (i x : Nat) (h : i < l.length) :
    (l.set i x).getD i 0 = x := by
  simp [List.getD, List.getElem?_set_eq_of_lt x h]

theorem lgetD_set_ne (l : List Nat) (i j x : Nat) (h : i ≠ j) :
    (l.set i x).getD j 0 = l.getD j 0 := by
  simp [List.getD, List.getElem?_set_ne h]

theorem lset_oob (l : List Nat) (i x : Nat) (h : l.length ≤ i) : l.set i x = l :=
  List.set_eq_of_length_le h

theorem lmem_set_bound (l : List Nat) (i x : Nat) (hl : ∀ b ∈ l, b < 256) (hx : x < 256) :
    ∀ b ∈ l.set i x, b < 256 := by
  intro b hb
  rcases List.mem_or_eq_of_mem_set hb with h | h
  · exact hl b h
  · subst h; exact hx

theorem alInsert_snd {κ ν : Type} [DecidableEq κ] (m : List (κ × ν)) (k : κ) (v : ν) :
    (alInsert m k v).2 = alGet m k := by
  induction m with
  | nil => rfl
  | cons h t ih =>
    obtain ⟨k', v'⟩ := h
    by_cases hk : k' = k <;> simp [alInsert, alGet, hk, ih]

theorem alGet_alInsert_self {κ ν : Type} [DecidableEq κ] (m : List (κ × ν)) (k : κ) (v : ν) :
    alGet (alInsert m k v).1 k = some v := by
  induction m with
  | nil => simp [alInsert, alGet]
  | cons h t ih =>
    obtain ⟨k', v'⟩ := h
    by_cases hk : k' = k <;> simp [alInsert, alGet, hk, ih]

theorem alGet_alInsert_ne {κ ν : Type} [DecidableEq κ] (m : List (κ × ν)) (k k' : κ) (v : ν)
    (h : k ≠ k') : alGet (alInsert m k v).1 k' = alGet m k' := by
  induction m with
  | nil => simp [alInsert, alGet, h]
  | cons hd t ih =>
    obtain ⟨k0, v0⟩ := hd
    by_cases hk : k0 = k
    · subst hk; simp [alInsert, alGet, h]
    · by_cases hk' : k0 = k'
      · subst hk'; simp [alInsert, alGet, hk, Ne.symm h]
      · simp [alInsert, alGet, hk, hk', ih]

theorem alGet_none_of_alInsert_none {κ ν : Type} [DecidableEq κ] (m : List (κ × ν))
    (k k' : κ) (v : ν) (h : alGet (alInsert m k v).1 k' = none) : alGet m k' = none := by
  by_cases hk : k = k'
  · subst hk; rw [alGet_alInsert_self] at h; cases h
  · rwa [alGet_alInsert_ne m k k' v hk] at h

theorem lowerChar_not_upper (c : Char) : (lowerChar c).isUpper = false := by
  unfold lowerChar
  split
  case isFalse h => simpa using h
  case isTrue h =>
    unfold Char.isUpper at h
    have h1 : 65 ≤ c.val := (Bool.and_eq_true _ _ |>.mp h).1 |> of_decide_eq_true
    have h2 : c.val ≤ 90 := (Bool.and_eq_true _ _ |>.mp h).2 |> of_decide_eq_true
    have h1n : 65 ≤ c.toNat := by
      have := UInt32.le_def.mp h1
      simpa [Char.toNat] using this
    have h2n : c.toNat ≤ 90 := by
      have := UInt32.le_def.mp h2
      simpa [Char.toNat] using this
    generalize c.toNat = k at h1n h2n
    interval_cases k <;> decide

theorem lowerChar_idem (c : Char) : lowerChar (lowerChar c) = lowerChar c := by
  have h := lowerChar_not_upper c
  conv_lhs => rw [lowerChar]
  rw [h]
  simp

theorem toAsciiLower_idem (s : String) : toAsciiLower (toAsciiLower s) = toAsciiLower s := by
  unfold toAsciiLower
  cases s with
  | mk data =>
    simp only [List.map_map]
    congr 1
    exact List.map_congr_left (fun c _ => lowerChar_idem c)

/-! Helper lemmas: bits and the encoder loop. -/

theorem and_shiftRight_distrib (a b n : Nat) : (a &&& b) >>> n = (a >>> n) &&& (b >>> n) := by
  apply Nat.eq_of_testBit_eq
  intro i
  simp [Nat.testBit_shiftRight, Nat.testBit_and]

theorem testBit_false_of_subset {val mask : Nat} (h : val &&& mask = val) {i : Nat}
    (hm : mask.testBit i = false) : val.testBit i = false := by
  have := congrArg (fun x => Nat.testBit x i) h
  simp only [Nat.testBit_and, hm, Bool.and_false] at this
  exact this.symm

theorem subset_shiftRight {val mask : Nat} (h : val &&& mask = val) (n : Nat) :
    (val >>> n) &&& (mask >>> n) = val >>> n := by
  rw [← and_shiftRight_distrib, h]

theorem encByte_lt (mask val b : Nat) : encByte mask val b < 256 := by
  unfold encByte
  have h1 : b &&& (255 ^^^ (mask &&& 255)) < 256 := by
    have : (255 : Nat) ^^^ (mask &&& 255) < 2 ^ 8 :=
      Nat.xor_lt_two_pow (by norm_num) (Nat.lt_of_le_of_lt Nat.and_le_right (by norm_num))
    exact Nat.lt_of_le_of_lt Nat.and_le_right this
  have h2 : val &&& 255 < 2 ^ 8 := Nat.lt_of_le_of_lt Nat.and_le_right (by norm_num)
  have h1' : b &&& (255 ^^^ (mask &&& 255)) < 2 ^ 8 := h1
  exact Nat.or_lt_two_pow h1' h2

theorem encByte_testBit (mask val b : Nat) {i : Nat} (hi : i < 8) :
    (encByte mask val b).testBit i =
      if mask.testBit i then val.testBit i
      else (b.testBit i || val.testBit i) := by
  unfold encByte
  have h255 : (255 : Nat).testBit i = true := by
    have : (255 : Nat) = 2 ^ 8 - 1 := by norm_num
    rw [this, Nat.testBit_two_pow_sub_one]
    simpa using hi
  rw [Nat.testBit_or, Nat.testBit_and, Nat.testBit_and, Nat.testBit_xor, Nat.testBit_and, h255]
  cases hb : mask.testBit i <;> cases hv : val.testBit i <;> cases hbb : b.testBit i <;> simp

theorem encByte_testBit_subset (mask val b : Nat) (hsub : val &&& mask = val) {i : Nat}
    (hi : i < 8) :
    (encByte mask val b).testBit i =
      if mask.testBit i then val.testBit i else b.testBit i := by
  rw [encByte_testBit mask val b hi]
  cases hb : mask.testBit i
  · simp [testBit_false_of_subset hsub hb]
  · simp

theorem encByte_idem (mask val b : Nat) (hsub : val &&& mask = val) :
    encByte mask val (encByte mask val b) = encByte mask val b := by
  apply Nat.eq_of_testBit_eq
  intro i
  rcases Nat.lt_or_ge i 8 with hi | hi
  · rw [encByte_testBit_subset mask val _ hsub hi, encByte_testBit_subset mask val b hsub hi]
    cases hb : mask.testBit i
    · simp [encByte_testBit_subset mask val b hsub hi, hb]
    · simp
  · have h1 : encByte mask val (encByte mask val b) < 2 ^ 8 := encByte_lt _ _ _
    have h2 : encByte mask val b < 2 ^ 8 := encByte_lt _ _ _
    rw [Nat.testBit_lt_two_pow (Nat.lt_of_lt_of_le h1 (Nat.pow_le_pow_right (by norm_num) hi)),
      Nat.testBit_lt_two_pow (Nat.lt_of_lt_of_le h2 (Nat.pow_le_pow_right (by norm_num) hi))]

theorem encodeLoop_zero_mask (fuel val ib : Nat) (bytes : List Nat) :
    encodeLoop fuel 0 val ib bytes = bytes := by
  cases fuel <;> simp [encodeLoop]

theorem encodeLoop_length (fuel : Nat) :
    ∀ (mask val ib : Nat) (bytes : List Nat),
      (encodeLoop fuel mask val ib bytes).length = bytes.length := by
  induction fuel with
  | zero => intro mask val ib bytes; rfl
  | succ f ih =>
    intro mask val ib bytes
    by_cases h : mask = 0
    · simp [encodeLoop, h]
    · simp only [encodeLoop, h, if_false]
      rw [ih]
      exact List.length_set bytes ib _

theorem encodeLoop_bound (fuel : Nat) :
    ∀ (mask val ib : Nat) (bytes : List Nat), (∀ b ∈ bytes, b < 256) →
      ∀ b ∈ encodeLoop fuel mask val ib bytes, b < 256 := by
  induction fuel with
  | zero => intro mask val ib bytes h; exact h
  | succ f ih =>
    intro mask val ib bytes h
    by_cases hm : mask = 0
    · simpa [encodeLoop, hm] using h
    · simp only [encodeLoop, hm, if_false]
      exact ih _ _ _ _ (lmem_set_bound _ _ _ h (encByte_lt _ _ _))

theorem encodeLoop_getD_lt (fuel : Nat) :
    ∀ (mask val ib : Nat) (bytes : List Nat) (j : Nat), j < ib →
      (encodeLoop fuel mask val ib bytes).getD j 0 = bytes.getD j 0 := by
  induction fuel with
  | zero => intro mask val ib bytes j _; rfl
  | succ f ih =>
    intro mask val ib bytes j hj
    by_cases hm : mask = 0
    · simp [encodeLoop, hm]
    · simp only [encodeLoop, hm, if_false]
      rw [ih _ _ _ _ _ (Nat.lt_succ_of_lt hj)]
      exact lgetD_set_ne bytes ib j _ (Nat.ne_of_gt hj)

theorem encodeLoop_set_lt (fuel : Nat) :
    ∀ (mask val ib : Nat) (bytes : List Nat) (j y : Nat), j < ib →
      encodeLoop fuel mask val ib (bytes.set j y) = (encodeLoop fuel mask val ib bytes).set j y := by
  induction fuel with
  | zero => intro mask val ib bytes j y _; rfl
  | succ f ih =>
    intro mask val ib bytes j y hj
    by_cases hm : mask = 0
    · simp [encodeLoop, hm]
    · simp only [encodeLoop, hm, if_false]
      rw [lgetD_set_ne bytes j ib y (Nat.ne_of_lt hj),
        List.set_comm _ _ bytes (Nat.ne_of_lt hj), ih _ _ _ _ _ _ (Nat.lt_succ_of_lt hj)]

theorem encodeLoop_testBit (j : Nat) :
    ∀ (fuel mask val ib : Nat) (bytes : List Nat), j ≤ fuel →
      mask < 2 ^ (8 * j) → val &&& mask = val → ib + j ≤ bytes.length →
      (∀ b ∈ bytes, b < 256) →
      ∀ p, bufBit (encodeLoop fuel mask val ib bytes) p =
        if 8 * ib ≤ p ∧ mask.testBit (p - 8 * ib) then val.testBit (p - 8 * ib)
        else bufBit bytes p := by
  induction j with
  | zero =>
    intro fuel mask val ib bytes _ hmask _ _ _ p
    have hm : mask = 0 := by omega
    subst hm
    rw [encodeLoop_zero_mask]
    simp [Nat.zero_testBit]
  | succ j ih =>
    intro fuel mask val ib bytes hj hmask hsub hlen hbound p
    cases fuel with
    | zero => omega
    | succ f =>
      by_cases hm : mask = 0
      · subst hm
        rw [encodeLoop_zero_mask]
        simp [Nat.zero_testBit]
      · simp only [encodeLoop, hm, if_false]
        have hib : ib < bytes.length := by omega
        have hmask' : mask >>> 8 < 2 ^ (8 * j) := by
          rw [Nat.shiftRight_eq_div_pow]
          rw [Nat.div_lt_iff_lt_mul (by positivity)]
          calc mask < 2 ^ (8 * (j + 1)) := hmask
            _ = 2 ^ (8 * j) * 2 ^ 8 := by rw [← pow_add]; ring_nf
        have hIH := ih f (mask >>> 8) (val >>> 8) (ib + 1)
          (bytes.set ib (encByte mask val (bytes.getD ib 0)))
          (by omega) hmask' (subset_shiftRight hsub 8)
          (by rw [List.length_set]; omega)
          (lmem_set_bound _ _ _ hbound (encByte_lt _ _ _)) p
        rw [hIH]
        rcases Nat.lt_or_ge p (8 * ib) with hp | hp
        · rw [if_neg (by rintro ⟨h1, _⟩; omega),
            if_neg (by rintro ⟨h1, _⟩ : 8 * ib ≤ p ∧ mask.testBit (p - 8 * ib); omega)]
          simp only [bufBit]
          rw [lgetD_set_ne bytes ib (p / 8) _ (by omega)]
        · rcases Nat.lt_or_ge p (8 * (ib + 1)) with hp2 | hp2
          · have hdiv : p / 8 = ib := by omega
            have hmod : p % 8 = p - 8 * ib := by omega
            rw [if_neg (by rintro ⟨h1, _⟩; omega)]
            simp only [bufBit, hdiv, hmod]
            rw [lgetD_set_self bytes ib _ hib,
              encByte_testBit_subset mask val _ hsub (show p - 8 * ib < 8 by omega)]
            cases hmb : mask.testBit (p - 8 * ib) <;> simp [hp, hmb]
          · have e : 8 + (p - 8 * (ib + 1)) = p - 8 * ib := by omega
            have et : (mask >>> 8).testBit (p - 8 * (ib + 1)) = mask.testBit (p - 8 * ib) := by
              rw [Nat.testBit_shiftRight, e]
            have ev : (val >>> 8).testBit (p - 8 * (ib + 1)) = val.testBit (p - 8 * ib) := by
              rw [Nat.testBit_shiftRight, e]
            by_cases hmb : mask.testBit (p - 8 * ib)
            · rw [if_pos ⟨by omega, by rw [et]; exact hmb⟩, if_pos ⟨by omega, hmb⟩, ev]
            · rw [if_neg (by rintro ⟨_, h2⟩; rw [et] at h2; exact absurd h2 (by simp [hmb])),
                if_neg (by rintro ⟨_, h2⟩; exact absurd h2 (by simp [hmb]))]
              simp only [bufBit]
              rw [lgetD_set_ne bytes ib (p / 8) _ (by omega)]

theorem and_and_self (a b : Nat) : (a &&& b) &&& b = a &&& b := by
  apply Nat.eq_of_testBit_eq
  intro i
  simp [Nat.testBit_and, Bool.and_assoc]

theorem subset_shiftLeft_mod {a b : Nat} (h : a &&& b = a) (s w : Nat) :
    ((a <<< s) % 2 ^ w) &&& ((b <<< s) % 2 ^ w) = (a <<< s) % 2 ^ w := by
  apply Nat.eq_of_testBit_eq
  intro i
  simp only [Nat.testBit_and, Nat.testBit_mod_two_pow, Nat.testBit_shiftLeft]
  by_cases h1 : i < w
  · by_cases h2 : i ≥ s
    · simp only [h1, h2, decide_True, Bool.true_and]
      cases ha : a.testBit (i - s)
      · simp
      · cases hb : b.testBit (i - s)
        · have := testBit_false_of_subset h hb
          rw [this] at ha
          cases ha
        · simp
    · simp [h2]
  · simp [h1]

theorem encodeLoop_idem (fuel : Nat) :
    ∀ (mask val ib : Nat) (bytes : List Nat), val &&& mask = val →
      encodeLoop fuel mask val ib (encodeLoop fuel mask val ib bytes) =
        encodeLoop fuel mask val ib bytes := by
  induction fuel with
  | zero => intro mask val ib bytes _; rfl
  | succ f ih =>
    intro mask val ib bytes hsub
    by_cases hm : mask = 0
    · simp [encodeLoop, hm]
    · simp only [encodeLoop, hm, if_false]
      rcases Nat.lt_or_ge ib bytes.length with hib | hib
      · rw [encodeLoop_getD_lt f (mask >>> 8) (val >>> 8) (ib + 1) _ ib (Nat.lt_succ_self ib),
          lgetD_set_self bytes ib _ hib,
          encByte_idem mask val _ hsub,
          ← encodeLoop_set_lt f (mask >>> 8) (val >>> 8) (ib + 1) _ ib _ (Nat.lt_succ_self ib),
          List.set_set]
        exact ih _ _ _ _ (subset_shiftRight hsub 8)
      · rw [lset_oob bytes ib _ hib,
          encodeLoop_getD_lt f (mask >>> 8) (val >>> 8) (ib + 1) bytes ib (Nat.lt_succ_self ib),
          lset_oob _ ib _ (by rw [encodeLoop_length]; exact hib)]
        exact ih _ _ _ _ (subset_shiftRight hsub 8)

theorem encode_into_idem (m : BitRangeMap) (bytes : List Nat) (v : Nat) :
    m.encode_into (m.encode_into bytes v) v = m.encode_into bytes v := by
  dsimp only [BitRangeMap.encode_into]
  refine encodeLoop_idem 8 _ _ _ _ ?_
  exact subset_shiftLeft_mod
    (subset_shiftRight (and_and_self v m.value_bitmask) ((m.value_first.emod 64).toNat)) _ 64

theorem and_shiftLeft_distrib (a b n : Nat) : (a &&& b) <<< n = (a <<< n) &&& (b <<< n) := by
  apply Nat.eq_of_testBit_eq
  intro i
  simp only [Nat.testBit_and, Nat.testBit_shiftLeft]
  cases hd : (decide (i ≥ n)) <;> simp

theorem shiftLeft_lt_two_pow {s t w : Nat} (h : s + t ≤ w) : (2 ^ s - 1) <<< t < 2 ^ w := by
  rw [Nat.shiftLeft_eq]
  calc (2 ^ s - 1) * 2 ^ t < 2 ^ s * 2 ^ t := by
        have hp : (0 : Nat) < 2 ^ t := Nat.pos_pow_of_pos t (by norm_num)
        have h2 : 2 ^ s - 1 < 2 ^ s := Nat.sub_lt (Nat.pos_pow_of_pos s (by norm_num)) (by norm_num)
        exact Nat.mul_lt_mul_of_lt_of_le h2 (Nat.le_refl _) hp
    _ = 2 ^ (s + t) := by rw [← pow_add]
    _ ≤ 2 ^ w := Nat.pow_le_pow_right (by norm_num) h

theorem shiftLeft_shiftRight_self (s vf : Nat) : ((2 ^ s - 1) <<< vf) >>> vf = 2 ^ s - 1 := by
  rw [Nat.shiftLeft_eq, Nat.shiftRight_eq_div_pow,
    Nat.mul_div_cancel _ (Nat.pos_pow_of_pos vf (by norm_num))]

theorem shiftRight_le_shiftRight {a b : Nat} (h : a ≤ b) (n : Nat) : a >>> n ≤ b >>> n := by
  simp only [Nat.shiftRight_eq_div_pow]
  exact Nat.div_le_div_right h

theorem shiftLeft_le_shiftLeft {a b : Nat} (h : a ≤ b) (n : Nat) : a <<< n ≤ b <<< n := by
  simp only [Nat.shiftLeft_eq]
  exact Nat.mul_le_mul_right _ h

theorem natCast_emod_toNat (n : Nat) (w : Int) (h : (n : Int) < w) :
    (((n : Int)).emod w).toNat = n := by
  have h2 : ((n : Int)).emod w = (n : Int) := Int.emod_eq_of_lt (by positivity) h
  rw [h2]
  exact Int.toNat_natCast n

/-- Normal form of BitRangeMap::encode_into on a map with in-range
nonnegative components: all wrapping is the identity and the working mask is
the span mask shifted into the first byte. -/
theorem encode_into_nat_eq (vl vf ifn : Nat) (bytes : List Nat) (v : Nat)
    (h1 : vf ≤ vl) (h2 : vl ≤ 63) (h3 : vl - vf + 1 ≤ 63)
    (h4 : vl - vf + 1 + ifn % 8 ≤ 64) (hifn : ifn < 2 ^ 31) :
    BitRangeMap.encode_into ⟨(vl : Int), (vf : Int), (ifn : Int)⟩ bytes v =
      encodeLoop 8 ((2 ^ (vl - vf + 1) - 1) <<< (ifn % 8))
        ((((v &&& ((2 ^ (vl - vf + 1) - 1) <<< vf)) >>> vf) <<< (ifn % 8)))
        (ifn / 8) bytes := by
  have hvb : BitRangeMap.value_bitmask ⟨(vl : Int), (vf : Int), (ifn : Int)⟩ =
      (2 ^ (vl - vf + 1) - 1) <<< vf := by
    dsimp only [BitRangeMap.value_bitmask]
    have hcast : ((vl : Int) - (vf : Int) + 1) = ((vl - vf + 1 : Nat) : Int) := by
      push_cast [h1]; ring
    rw [hcast, natCast_emod_toNat (vl - vf + 1) 64 (by omega),
      natCast_emod_toNat vf 64 (by omega), Nat.one_shiftLeft]
    exact Nat.mod_eq_of_lt (shiftLeft_lt_two_pow (by omega))
  dsimp only [BitRangeMap.encode_into, asUsize]
  rw [hvb, natCast_emod_toNat vf 64 (by omega),
    natCast_emod_toNat ifn (2 ^ 64) (by exact_mod_cast Nat.lt_trans hifn (by norm_num)),
    shiftLeft_shiftRight_self]
  congr 1
  · exact Nat.mod_eq_of_lt
      (shiftLeft_lt_two_pow (s := vl - vf + 1) (t := ifn % 8) (w := 64) (by omega))
  · refine Nat.mod_eq_of_lt (Nat.lt_of_le_of_lt ?_
      (shiftLeft_lt_two_pow (s := vl - vf + 1) (t := ifn % 8) (w := 64) (by omega)))
    refine shiftLeft_le_shiftLeft ?_ (ifn % 8)
    calc (v &&& (2 ^ (vl - vf + 1) - 1) <<< vf) >>> vf
        ≤ ((2 ^ (vl - vf + 1) - 1) <<< vf) >>> vf := shiftRight_le_shiftRight Nat.and_le_right vf
      _ = 2 ^ (vl - vf + 1) - 1 := shiftLeft_shiftRight_self _ _

/-- Bit-level behaviour of BitRangeMap::encode_into for clean maps: the bits
of the target range take the mapped value bits, all other buffer bits keep
their previous value. -/
theorem encode_into_testBit (vl vf ifn : Nat) (bytes : List Nat) (v : Nat)
    (h1 : vf ≤ vl) (h2 : vl ≤ 63) (h3 : vl - vf + 1 ≤ 63)
    (h4 : vl - vf + 1 + ifn % 8 ≤ 64) (hifn : ifn < 2 ^ 31)
    (h5 : (ifn + (vl - vf)) / 8 < bytes.length) (h6 : ∀ b ∈ bytes, b < 256) :
    ∀ p, bufBit (BitRangeMap.encode_into ⟨(vl : Int), (vf : Int), (ifn : Int)⟩ bytes v) p =
      if ifn ≤ p ∧ p ≤ ifn + (vl - vf) then v.testBit (vf + (p - ifn))
      else bufBit bytes p := by
  intro p
  rw [encode_into_nat_eq vl vf ifn bytes v h1 h2 h3 h4 hifn]
  have hsub : ((v &&& ((2 ^ (vl - vf + 1) - 1) <<< vf)) >>> vf) &&& (2 ^ (vl - vf + 1) - 1) =
      (v &&& ((2 ^ (vl - vf + 1) - 1) <<< vf)) >>> vf := by
    have h := subset_shiftRight (and_and_self v ((2 ^ (vl - vf + 1) - 1) <<< vf)) vf
    rwa [shiftLeft_shiftRight_self] at h
  have hsub2 : ((((v &&& ((2 ^ (vl - vf + 1) - 1) <<< vf)) >>> vf) <<< (ifn % 8)) &&&
      ((2 ^ (vl - vf + 1) - 1) <<< (ifn % 8))) =
      (((v &&& ((2 ^ (vl - vf + 1) - 1) <<< vf)) >>> vf) <<< (ifn % 8)) := by
    rw [← and_shiftLeft_distrib, hsub]
  rw [encodeLoop_testBit ((vl - vf + 1 + ifn % 8 + 7) / 8) 8
    ((2 ^ (vl - vf + 1) - 1) <<< (ifn % 8))
    ((((v &&& ((2 ^ (vl - vf + 1) - 1) <<< vf)) >>> vf) <<< (ifn % 8)))
    (ifn / 8) bytes (by omega)
    (Nat.lt_of_lt_of_le (shiftLeft_lt_two_pow (Nat.le_refl _))
      (Nat.pow_le_pow_right (by norm_num) (by omega)))
    hsub2 (by omega) h6 p]
  have hmaskbit : ((2 ^ (vl - vf + 1) - 1) <<< (ifn % 8)).testBit (p - 8 * (ifn / 8)) =
      (decide (p - 8 * (ifn / 8) ≥ ifn % 8) &&
        decide (p - 8 * (ifn / 8) - ifn % 8 < vl - vf + 1)) := by
    rw [Nat.testBit_shiftLeft, Nat.testBit_two_pow_sub_one]
  by_cases hin : ifn ≤ p ∧ p ≤ ifn + (vl - vf)
  · have c1 : 8 * (ifn / 8) ≤ p := by omega
    have c2 : ((2 ^ (vl - vf + 1) - 1) <<< (ifn % 8)).testBit (p - 8 * (ifn / 8)) = true := by
      rw [hmaskbit]
      simp only [Bool.and_eq_true, decide_eq_true_eq]
      constructor <;> omega
    rw [if_pos ⟨c1, c2⟩, if_pos hin]
    rw [Nat.testBit_shiftLeft, Nat.testBit_shiftRight, Nat.testBit_and,
      Nat.testBit_shiftLeft, Nat.testBit_two_pow_sub_one]
    have e1 : vf + (p - 8 * (ifn / 8) - ifn % 8) = vf + (p - ifn) := by omega
    rw [e1]
    have e2 : decide (p - 8 * (ifn / 8) ≥ ifn % 8) = true := by
      simp only [decide_eq_true_eq]; omega
    have e3 : decide (vf + (p - ifn) ≥ vf) = true := by
      simp only [decide_eq_true_eq]; omega
    have e4 : decide (vf + (p - ifn) - vf < vl - vf + 1) = true := by
      simp only [decide_eq_true_eq]; omega
    rw [e2, e3, e4]
    simp
  · rw [if_neg hin, if_neg ?_]
    rintro ⟨c1, c2⟩
    rw [hmaskbit] at c2
    simp only [Bool.and_eq_true, decide_eq_true_eq] at c2
    exact hin ⟨by omega, by omega⟩

theorem encode_into_length (m : BitRangeMap) (bytes : List Nat) (v : Nat) :
    (m.encode_into bytes v).length = bytes.length := by
  dsimp only [BitRangeMap.encode_into]
  exact encodeLoop_length 8 _ _ _ _

theorem encode_into_bound (m : BitRangeMap) (bytes : List Nat) (v : Nat)
    (h : ∀ b ∈ bytes, b < 256) : ∀ b ∈ m.encode_into bytes v, b < 256 := by
  dsimp only [BitRangeMap.encode_into]
  exact encodeLoop_bound 8 _ _ _ _ h

/-- Bit-level behaviour of encode_into stated on an arbitrary clean map. -/
theorem encode_into_testBit_clean (m : BitRangeMap) (bytes : List Nat) (v : Nat)
    (hc : CleanMap m bytes.length) (hb : ∀ b ∈ bytes, b < 256) :
    ∀ p, bufBit (m.encode_into bytes v) p =
      if m.instruction_first.toNat ≤ p ∧
          p ≤ m.instruction_first.toNat + (m.value_last.toNat - m.value_first.toNat) then
        v.testBit (m.value_first.toNat + (p - m.instruction_first.toNat))
      else bufBit bytes p := by
  obtain ⟨vlast, vfirst, ifirst⟩ := m
  obtain ⟨hc1, hc2, hc3, hc4, hc5, hc6, hc7, hc8⟩ := hc
  simp only at hc1 hc2 hc3 hc4 hc5 hc6 hc7 hc8
  have evl : vlast = (vlast.toNat : Int) := (Int.toNat_of_nonneg (le_trans hc1 hc2)).symm
  have evf : vfirst = (vfirst.toNat : Int) := (Int.toNat_of_nonneg hc1).symm
  have eif : ifirst = (ifirst.toNat : Int) := (Int.toNat_of_nonneg hc4).symm
  rw [show (⟨vlast, vfirst, ifirst⟩ : BitRangeMap) =
      ⟨(vlast.toNat : Int), (vfirst.toNat : Int), (ifirst.toNat : Int)⟩ from by
    rw [← evl, ← evf, ← eif]]
  simp only [Int.toNat_natCast]
  exact encode_into_testBit vlast.toNat vfirst.toNat ifirst.toNat bytes v
    (by omega) (by omega) hc6 hc7 (by omega) hc8 hb

theorem coveringValue_append (A B : List (BitRangeMap × Nat)) (p : Nat) :
    coveringValue (A ++ B) p =
      match coveringValue B p with
      | some b => some b
      | none => coveringValue A p := by
  induction A with
  | nil =>
    simp only [List.nil_append, coveringValue]
    cases coveringValue B p <;> rfl
  | cons x A ih =>
    obtain ⟨m, v⟩ := x
    simp only [List.cons_append, coveringValue, List.append_eq]
    rw [ih]
    cases hB : coveringValue B p <;> simp

/-- Bit-level behaviour of a sequence of encodes: the latest covering pair
wins, bits covered by no pair are preserved. -/
theorem encodePairs_testBit (pairs : List (BitRangeMap × Nat)) :
    ∀ (bytes : List Nat), (∀ pr ∈ pairs, CleanMap pr.1 bytes.length) →
      (∀ b ∈ bytes, b < 256) →
      ∀ p, bufBit (encodePairs pairs bytes) p =
        (coveringValue pairs p).getD (bufBit bytes p) := by
  induction pairs with
  | nil => intro bytes _ _ p; rfl
  | cons pr t ih =>
    intro bytes hclean hbound p
    obtain ⟨m, v⟩ := pr
    have hlen : (m.encode_into bytes v).length = bytes.length := encode_into_length m bytes v
    have hstep := encode_into_testBit_clean m bytes v
      (hclean (m, v) (List.mem_cons_self _ _)) hbound p
    have ht := ih (m.encode_into bytes v)
      (fun q hq => by rw [hlen]; exact hclean q (List.mem_cons_of_mem _ hq))
      (encode_into_bound m bytes v hbound) p
    show bufBit (encodePairs t (m.encode_into bytes v)) p = _
    rw [ht, hstep]
    simp only [coveringValue]
    cases hcv : coveringValue t p
    · simp only [Option.getD]
      split <;> rfl
    · rfl

theorem encodePairs_length (pairs : List (BitRangeMap × Nat)) :
    ∀ bytes : List Nat, (encodePairs pairs bytes).length = bytes.length := by
  induction pairs with
  | nil => intro bytes; rfl
  | cons pr t ih =>
    intro bytes
    show (encodePairs t (pr.1.encode_into bytes pr.2)).length = _
    rw [ih, encode_into_length]

theorem encodePairs_append (X Y : List (BitRangeMap × Nat)) (bytes : List Nat) :
    encodePairs (X ++ Y) bytes = encodePairs Y (encodePairs X bytes) :=
  List.foldl_append _ _ _ _

theorem encodePairs_map_enc (enc : List BitRangeMap) (v : Nat) (bytes : List Nat) :
    encodePairs (enc.map (fun m => (m, v))) bytes =
      enc.foldl (fun b e => e.encode_into b v) bytes := by
  unfold encodePairs
  rw [List.foldl_map]

theorem encodeFieldPairs_eq (fmt : InstructionFormat) :
    ∀ (l : List (Nat × Nat)) (bytes : List Nat),
      (∀ pr ∈ l, pr.1 < fmt.fields.length) →
      encodeFieldPairs fmt l bytes = some (encodePairs (fieldPairsOf fmt l) bytes) := by
  intro l
  induction l with
  | nil => intro bytes _; rfl
  | cons pr t ih =>
    intro bytes hvalid
    obtain ⟨fldid, fldval⟩ := pr
    have hlt : fldid < fmt.fields.length := hvalid _ (List.mem_cons_self _ _)
    cases hget : fmt.fields.get? fldid with
    | none =>
      rw [List.get?_eq_none] at hget
      omega
    | some fld =>
      simp only [encodeFieldPairs, hget]
      rw [ih _ (fun q hq => hvalid q (List.mem_cons_of_mem _ hq))]
      unfold fieldPairsOf
      rw [List.flatMap_cons]
      show _ = some (encodePairs (((fmt.fields.get? fldid).getD default).encoding.map
        (fun m => (m, fldval)) ++ t.flatMap _) bytes)
      rw [hget, encodePairs_append, encodePairs_map_enc]
      rfl

theorem insn_encode_into_eq (spec : RiscVSpec) (insn : InstructionDefinition)
    (fmt : InstructionFormat) (bytes : List Nat) (argvals : List Nat)
    (hfmt : spec.get_instruction_format insn.format_idx = some fmt)
    (hlen : argvals.length = insn.args.length)
    (hf : ∀ pr ∈ insn.fields, pr.1 < fmt.fields.length)
    (ha : ∀ i ∈ insn.args, i < fmt.fields.length) :
    insn.encode_into bytes spec argvals =
      some (encodePairs
        (fieldPairsOf fmt insn.fields ++ fieldPairsOf fmt (insn.args.zip argvals)) bytes) := by
  unfold InstructionDefinition.encode_into
  rw [if_pos hlen, hfmt]
  dsimp only
  rw [encodeFieldPairs_eq fmt insn.fields bytes hf]
  dsimp only
  rw [encodeFieldPairs_eq fmt (insn.args.zip argvals) _
    (fun pr hpr => ha pr.1 (List.of_mem_zip hpr).1)]
  rw [encodePairs_append]

theorem fieldPairsOf_mem (fmt : InstructionFormat) (l : List (Nat × Nat))
    (pr : BitRangeMap × Nat) (h : pr ∈ fieldPairsOf fmt l)
    (hvalid : ∀ q ∈ l, q.1 < fmt.fields.length) :
    ∃ fld ∈ fmt.fields, pr.1 ∈ fld.encoding := by
  unfold fieldPairsOf at h
  rw [List.mem_flatMap] at h
  obtain ⟨q, hq, hmem⟩ := h
  rw [List.mem_map] at hmem
  obtain ⟨m, hm, he⟩ := hmem
  have hlt : q.1 < fmt.fields.length := hvalid q hq
  cases hget : fmt.fields.get? q.1 with
  | none =>
    rw [List.get?_eq_none] at hget
    omega
  | some fld =>
    refine ⟨fld, ?_, ?_⟩
    · exact List.get?_mem hget
    · rw [hget] at hm
      rw [← he]
      exact hm

/-- C2 (amended): for a clean bit-range map -- nonnegative components,
value_last at most 63, a span of at most 63 bits that still fits a u64
after the sub-byte shift -- and a buffer containing the target range whose
entries are bytes, encode_into overwrites exactly the instruction bits
instruction_first .. instruction_first + (value_last - value_first) with
bits value_last down to value_first of the value, and preserves every other
bit of the buffer, byte straddling included. -/
theorem C2_encode_into_exact (vl vf ifn : Nat) (bytes : List Nat) (v : Nat)
    (h1 : vf ≤ vl) (h2 : vl ≤ 63) (h3 : vl - vf + 1 ≤ 63)
    (h4 : vl - vf + 1 + ifn % 8 ≤ 64) (hifn : ifn < 2 ^ 31)
    (h5 : (ifn + (vl - vf)) / 8 < bytes.length) (h6 : ∀ b ∈ bytes, b < 256) :
    ∀ p, bufBit (BitRangeMap.encode_into ⟨(vl : Int), (vf : Int), (ifn : Int)⟩ bytes v) p =
      if ifn ≤ p ∧ p ≤ ifn + (vl - vf) then v.testBit (vf + (p - ifn))
      else bufBit bytes p :=
  encode_into_testBit vl vf ifn bytes v h1 h2 h3 h4 hifn h5 h6

/-- Witness for C2: a 12-bit value written at instruction bit 4 straddles
both bytes of a two-byte buffer; bit 5 of the result carries value bit 1. -/
theorem C2_encode_into_exact_witness :
    bufBit (BitRangeMap.encode_into ⟨11, 0, 4⟩ [171, 205] 4095) 5 =
      (if 4 ≤ 5 ∧ 5 ≤ 4 + (11 - 0) then Nat.testBit 4095 (0 + (5 - 4))
       else bufBit [171, 205] 5) :=
  C2_encode_into_exact 11 0 4 [171, 205] 4095 (by decide) (by decide) (by decide) (by decide)
    (by decide) (by decide) (by decide) 5

/-- Counterexample for C2 as stated: the map (63, 0, 0) satisfies the
claimed preconditions (value_last at least value_first at least 0,
instruction_first at least 0) and the 8-byte buffer contains the whole
64-bit target range, yet with the value 0 the code leaves buffer bit 0 at
1 instead of overwriting it with bit 0 of the value, which is 0: the span
of 64 value bits makes the internal shift wrap and the mask vanish. -/
theorem C2_full_span_cex :
    bufBit (BitRangeMap.encode_into ⟨63, 0, 0⟩ (List.replicate 8 255) 0) 0 = true ∧
    Nat.testBit 0 0 = false := by
  decide

/-- C3: BitRangeMap::encode_into is idempotent -- it zeroes the target bits
under the working mask before ORing, so a second identical application
leaves the buffer unchanged.  This holds for every map, every buffer and
every value. -/
theorem C3_encode_into_idempotent (m : BitRangeMap) (bytes : List Nat) (v : Nat) :
    m.encode_into (m.encode_into bytes v) v = m.encode_into bytes v :=
  encode_into_idem m bytes v

/-- C9: a bit-range map spanning exactly 64 value bits (value_last equal to
value_first plus 63) makes the shift count in value_bitmask wrap to zero
under the modelled release-mode shift semantics, so the mask evaluates to 0
and encode_into leaves the buffer completely unchanged instead of copying
the 64 bits. -/
theorem C9_full_span_mask_zero (vf ifn : Int) (bytes : List Nat) (v : Nat) :
    BitRangeMap.value_bitmask ⟨vf + 63, vf, ifn⟩ = 0 ∧
    BitRangeMap.encode_into ⟨vf + 63, vf, ifn⟩ bytes v = bytes := by
  have hmask : BitRangeMap.value_bitmask ⟨vf + 63, vf, ifn⟩ = 0 := by
    dsimp only [BitRangeMap.value_bitmask]
    have e : (vf + 63 - vf + 1 : Int) = 64 := by ring
    rw [e, show ((64 : Int).emod 64).toNat = 0 from by decide]
    simp [Nat.shiftLeft_zero, Nat.zero_shiftLeft]
  refine ⟨hmask, ?_⟩
  dsimp only [BitRangeMap.encode_into]
  rw [hmask]
  simp only [Nat.zero_shiftRight, Nat.zero_shiftLeft, Nat.zero_mod]
  exact encodeLoop_zero_mask 8 _ _ bytes

/-- C8: InstructionDefinition::encode_into applies the fixed field pairs
first and the operand values afterwards, one encoder call per bit-range
map; the result is the two pair lists encoded in sequence, and on every bit
covered by some operand map the final buffer holds the operand bits, the
latest covering operand winning -- so operands override overlapping fixed
fields. -/
theorem C8_operands_override_fields (spec : RiscVSpec) (insn : InstructionDefinition)
    (fmt : InstructionFormat) (bytes out argvals : List Nat)
    (hfmt : spec.get_instruction_format insn.format_idx = some fmt)
    (hlen : argvals.length = insn.args.length)
    (hf : ∀ pr ∈ insn.fields, pr.1 < fmt.fields.length)
    (ha : ∀ i ∈ insn.args, i < fmt.fields.length)
    (hclean : ∀ fld ∈ fmt.fields, ∀ m ∈ fld.encoding, CleanMap m bytes.length)
    (hbound : ∀ b ∈ bytes, b < 256)
    (hok : insn.encode_into bytes spec argvals = some out) :
    out = encodePairs
        (fieldPairsOf fmt insn.fields ++ fieldPairsOf fmt (insn.args.zip argvals)) bytes ∧
    ∀ p b, coveringValue (fieldPairsOf fmt (insn.args.zip argvals)) p = some b →
      bufBit out p = b := by
  have heq := insn_encode_into_eq spec insn fmt bytes argvals hfmt hlen hf ha
  rw [hok] at heq
  have hout := Option.some.inj heq
  refine ⟨hout, ?_⟩
  intro p b hcov
  rw [hout]
  have hcleanpairs : ∀ pr ∈ (fieldPairsOf fmt insn.fields ++
      fieldPairsOf fmt (insn.args.zip argvals)), CleanMap pr.1 bytes.length := by
    intro pr hpr
    rcases List.mem_append.mp hpr with h | h
    · obtain ⟨fld, hfld, hm⟩ := fieldPairsOf_mem fmt insn.fields pr h hf
      exact hclean fld hfld pr.1 hm
    · obtain ⟨fld, hfld, hm⟩ := fieldPairsOf_mem fmt _ pr h
        (fun q hq => ha q.1 (List.of_mem_zip hq).1)
      exact hclean fld hfld pr.1 hm
  rw [encodePairs_testBit _ bytes hcleanpairs hbound p, coveringValue_append, hcov]
  rfl

/-- Witness for C8: in the overlap document, instruction ov fixes field f1
(bits 0-3) to 15 and binds operand f2 (bits 2-5); encoding with operand 0
yields the byte 3 -- bit 2 of the result is the operand's 0, not the fixed
field's 1. -/
theorem C8_operands_override_fields_witness :
    InstructionDefinition.encode_into ⟨"ov", 0, [1], [(0, 15)]⟩ [0]
      (load_single_toml RiscVSpec.new rvDocOverlap).1 [0] = some [3] ∧
    bufBit [3] 2 = false := by
  refine ⟨by decide, ?_⟩
  exact (C8_operands_override_fields (load_single_toml RiscVSpec.new rvDocOverlap).1
    ⟨"ov", 0, [1], [(0, 15)]⟩
    ⟨"G", [⟨"f1", FieldType.Value, 4, [⟨3, 0, 0⟩]⟩, ⟨"f2", FieldType.Value, 4, [⟨3, 0, 2⟩]⟩], 6⟩
    [0] [3] [0] (by decide) (by decide) (by decide) (by decide) (by decide) (by decide)
    (by decide)).2 2 false (by decide)

/-! Frame lemmas: which spec fields each loader section leaves unchanged. -/

theorem loadMeta_parts (s : RiscVSpec) (d : Toml) :
    (loadMeta s d).1.consts = s.consts ∧
    (loadMeta s d).1.registers = s.registers ∧
    (loadMeta s d).1.register_name_lookup = s.register_name_lookup ∧
    (loadMeta s d).1.instruction_formats = s.instruction_formats ∧
    (loadMeta s d).1.instructions = s.instructions ∧
    (loadMeta s d).1.instruction_name_lookup = s.instruction_name_lookup := by
  unfold loadMeta
  repeat' split
  all_goals simp

theorem loadConstsList_parts (l : List (String × Toml)) :
    ∀ s : RiscVSpec,
      (loadConstsList s l).1.registers = s.registers ∧
      (loadConstsList s l).1.register_name_lookup = s.register_name_lookup ∧
      (loadConstsList s l).1.instruction_formats = s.instruction_formats ∧
      (loadConstsList s l).1.instructions = s.instructions ∧
      (loadConstsList s l).1.instruction_name_lookup = s.instruction_name_lookup := by
  induction l with
  | nil => intro s; exact ⟨rfl, rfl, rfl, rfl, rfl⟩
  | cons kv t ih =>
    intro s
    obtain ⟨k, v⟩ := kv
    unfold loadConstsList
    split
    · simp
    · simpa using ih _

theorem loadConsts_parts (s : RiscVSpec) (d : Toml) :
    (loadConsts s d).1.registers = s.registers ∧
    (loadConsts s d).1.register_name_lookup = s.register_name_lookup ∧
    (loadConsts s d).1.instruction_formats = s.instruction_formats ∧
    (loadConsts s d).1.instructions = s.instructions ∧
    (loadConsts s d).1.instruction_name_lookup = s.instruction_name_lookup := by
  unfold loadConsts
  repeat' split
  · exact ⟨rfl, rfl, rfl, rfl, rfl⟩
  · simp
  · exact loadConstsList_parts _ _

theorem loadRegNamesList_parts (l : List (String × Toml)) :
    ∀ s : RiscVSpec,
      (loadRegNamesList s l).1.consts = s.consts ∧
      (loadRegNamesList s l).1.register_name_lookup = s.register_name_lookup ∧
      (loadRegNamesList s l).1.instruction_formats = s.instruction_formats ∧
      (loadRegNamesList s l).1.instructions = s.instructions ∧
      (loadRegNamesList s l).1.instruction_name_lookup = s.instruction_name_lookup := by
  induction l with
  | nil => intro s; exact ⟨rfl, rfl, rfl, rfl, rfl⟩
  | cons kv t ih =>
    intro s
    obtain ⟨k, v⟩ := kv
    unfold loadRegNamesList
    repeat' split
    · simp
    · simp
    · simp
    · simpa using ih _

theorem loadRegLengthsList_parts (l : List (String × Toml)) :
    ∀ s : RiscVSpec,
      (loadRegLengthsList s l).1.consts = s.consts ∧
      (loadRegLengthsList s l).1.register_name_lookup = s.register_name_lookup ∧
      (loadRegLengthsList s l).1.instruction_formats = s.instruction_formats ∧
      (loadRegLengthsList s l).1.instructions = s.instructions ∧
      (loadRegLengthsList s l).1.instruction_name_lookup = s.instruction_name_lookup := by
  induction l with
  | nil => intro s; exact ⟨rfl, rfl, rfl, rfl, rfl⟩
  | cons kv t ih =>
    intro s
    obtain ⟨k, v⟩ := kv
    unfold loadRegLengthsList
    repeat' split
    · simp
    · simp
    · simpa using ih _

theorem loadRegistersNames_parts (s : RiscVSpec) (rt : List (String × Toml)) :
    (loadRegistersNames s rt).1.consts = s.consts ∧
    (loadRegistersNames s rt).1.register_name_lookup = s.register_name_lookup ∧
    (loadRegistersNames s rt).1.instruction_formats = s.instruction_formats ∧
    (loadRegistersNames s rt).1.instructions = s.instructions ∧
    (loadRegistersNames s rt).1.instruction_name_lookup = s.instruction_name_lookup := by
  unfold loadRegistersNames
  repeat' split
  · exact ⟨rfl, rfl, rfl, rfl, rfl⟩
  · simp
  · exact loadRegNamesList_parts _ _

theorem loadRegistersLengths_parts (s : RiscVSpec) (rt : List (String × Toml)) :
    (loadRegistersLengths s rt).1.consts = s.consts ∧
    (loadRegistersLengths s rt).1.register_name_lookup = s.register_name_lookup ∧
    (loadRegistersLengths s rt).1.instruction_formats = s.instruction_formats ∧
    (loadRegistersLengths s rt).1.instructions = s.instructions ∧
    (loadRegistersLengths s rt).1.instruction_name_lookup = s.instruction_name_lookup := by
  unfold loadRegistersLengths
  repeat' split
  · exact ⟨rfl, rfl, rfl, rfl, rfl⟩
  · simp
  · exact loadRegLengthsList_parts _ _

theorem loadRegisters_parts (s : RiscVSpec) (d : Toml) :
    (loadRegisters s d).1.consts = s.consts ∧
    (loadRegisters s d).1.register_name_lookup = s.register_name_lookup ∧
    (loadRegisters s d).1.instruction_formats = s.instruction_formats ∧
    (loadRegisters s d).1.instructions = s.instructions ∧
    (loadRegisters s d).1.instruction_name_lookup = s.instruction_name_lookup := by
  unfold loadRegisters
  split
  · exact ⟨rfl, rfl, rfl, rfl, rfl⟩
  · split
    · simp
    · rename_i kvs heq0
      rcases hrn : loadRegistersNames s kvs with ⟨s1, e1⟩
      have h1 := loadRegistersNames_parts s kvs
      rw [hrn] at h1
      simp only at h1
      obtain ⟨a1, a2, a3, a4, a5⟩ := h1
      cases e1 with
      | some e => exact ⟨a1, a2, a3, a4, a5⟩
      | none =>
        have h2 := loadRegistersLengths_parts s1 kvs
        obtain ⟨b1, b2, b3, b4, b5⟩ := h2
        exact ⟨by rw [b1, a1], by rw [b2, a2], by rw [b3, a3], by rw [b4, a4], by rw [b5, a5]⟩

theorem loadFormatsList_parts (l : List (String × Toml)) :
    ∀ s : RiscVSpec,
      (loadFormatsList s l).1.consts = s.consts ∧
      (loadFormatsList s l).1.registers = s.registers ∧
      (loadFormatsList s l).1.register_name_lookup = s.register_name_lookup ∧
      (loadFormatsList s l).1.instructions = s.instructions ∧
      (loadFormatsList s l).1.instruction_name_lookup = s.instruction_name_lookup := by
  induction l with
  | nil => intro s; exact ⟨rfl, rfl, rfl, rfl, rfl⟩
  | cons kv t ih =>
    intro s
    obtain ⟨k, v⟩ := kv
    unfold loadFormatsList
    repeat' split
    · simp
    · simp
    · simpa using ih _

theorem loadFormats_parts (s : RiscVSpec) (d : Toml) :
    (loadFormats s d).1.consts = s.consts ∧
    (loadFormats s d).1.registers = s.registers ∧
    (loadFormats s d).1.register_name_lookup = s.register_name_lookup ∧
    (loadFormats s d).1.instructions = s.instructions ∧
    (loadFormats s d).1.instruction_name_lookup = s.instruction_name_lookup := by
  unfold loadFormats
  repeat' split
  · exact ⟨rfl, rfl, rfl, rfl, rfl⟩
  · simp
  · exact loadFormatsList_parts _ _

theorem loadInstructionsList_parts (l : List (String × Toml)) :
    ∀ s : RiscVSpec,
      (loadInstructionsList s l).1.consts = s.consts ∧
      (loadInstructionsList s l).1.registers = s.registers ∧
      (loadInstructionsList s l).1.register_name_lookup = s.register_name_lookup ∧
      (loadInstructionsList s l).1.instruction_formats = s.instruction_formats := by
  induction l with
  | nil => intro s; exact ⟨rfl, rfl, rfl, rfl⟩
  | cons kv t ih =>
    intro s
    obtain ⟨k, v⟩ := kv
    unfold loadInstructionsList
    dsimp only
    repeat' split
    all_goals simp [ih]

theorem loadInstructions_parts (s : RiscVSpec) (d : Toml) :
    (loadInstructions s d).1.consts = s.consts ∧
    (loadInstructions s d).1.registers = s.registers ∧
    (loadInstructions s d).1.register_name_lookup = s.register_name_lookup ∧
    (loadInstructions s d).1.instruction_formats = s.instruction_formats := by
  unfold loadInstructions
  repeat' split
  · exact ⟨rfl, rfl, rfl, rfl⟩
  · simp
  · exact loadInstructionsList_parts _ _

/-! Error-shape lemmas: only the instructions loop can report
DuplicateInstruction. -/

theorem toml_int_ne_dup (c : List (String × Nat)) (k : String) (v : Toml) (n : String) :
    toml_int c k v ≠ .error (.DuplicateInstruction n) := by
  unfold toml_int
  repeat' split
  all_goals simp

theorem loadMeta_ne_dup (s : RiscVSpec) (d : Toml) (n : String) :
    (loadMeta s d).2 ≠ some (.DuplicateInstruction n) := by
  unfold loadMeta
  repeat' split
  all_goals simp

theorem checkRequiresList_ne_dup (l : List Toml) :
    ∀ (s : RiscVSpec) (n : String), checkRequiresList s l ≠ some (.DuplicateInstruction n) := by
  induction l with
  | nil => intro s n; simp [checkRequiresList]
  | cons rq t ih =>
    intro s n
    unfold checkRequiresList
    repeat' split
    all_goals simp [ih]

theorem checkRequires_ne_dup (s : RiscVSpec) (d : Toml) (n : String) :
    checkRequires s d ≠ some (.DuplicateInstruction n) := by
  unfold checkRequires
  repeat' split
  all_goals simp [checkRequiresList_ne_dup]

theorem loadConstsList_ne_dup (l : List (String × Toml)) :
    ∀ (s : RiscVSpec) (n : String),
      (loadConstsList s l).2 ≠ some (.DuplicateInstruction n) := by
  induction l with
  | nil => intro s n; simp [loadConstsList]
  | cons kv t ih =>
    intro s n
    obtain ⟨k, v⟩ := kv
    unfold loadConstsList
    split
    · intro hc
      simp only [Option.some.injEq] at hc
      subst hc
      exact toml_int_ne_dup _ _ _ _ (by assumption)
    · exact ih _ n

theorem loadConsts_ne_dup (s : RiscVSpec) (d : Toml) (n : String) :
    (loadConsts s d).2 ≠ some (.DuplicateInstruction n) := by
  unfold loadConsts
  repeat' split
  all_goals simp [loadConstsList_ne_dup]

theorem collectRegNames_ne_dup (l : List Toml) :
    ∀ (msg : String) (n : String) (e : LoadError), collectRegNames msg l = .error e →
      e ≠ .DuplicateInstruction n := by
  induction l with
  | nil => intro msg n e h; cases h
  | cons nm t ih =>
    intro msg n e h
    unfold collectRegNames at h
    repeat' split at h
    all_goals solve
      | cases h
      | (cases h; solve
          | simp
          | exact ih msg n _ (by assumption))
      | simp

theorem loadRegNamesList_ne_dup (l : List (String × Toml)) :
    ∀ (s : RiscVSpec) (n : String),
      (loadRegNamesList s l).2 ≠ some (.DuplicateInstruction n) := by
  induction l with
  | nil => intro s n; simp [loadRegNamesList]
  | cons kv t ih =>
    intro s n
    obtain ⟨k, v⟩ := kv
    unfold loadRegNamesList
    try dsimp only
    repeat' split
    all_goals solve
      | simp
      | exact ih _ n
      | (intro hc
         try simp only [Option.some.injEq] at hc
         subst hc
         exact collectRegNames_ne_dup _ _ n _ (by assumption) rfl)

theorem loadRegLengthsList_ne_dup (l : List (String × Toml)) :
    ∀ (s : RiscVSpec) (n : String),
      (loadRegLengthsList s l).2 ≠ some (.DuplicateInstruction n) := by
  induction l with
  | nil => intro s n; simp [loadRegLengthsList]
  | cons kv t ih =>
    intro s n
    obtain ⟨k, v⟩ := kv
    unfold loadRegLengthsList
    try dsimp only
    repeat' split
    all_goals solve
      | simp
      | exact ih _ n
      | (intro hc
         try simp only [Option.some.injEq] at hc
         subst hc
         exact toml_int_ne_dup _ _ _ _ (by assumption))

theorem loadRegistersNames_ne_dup (s : RiscVSpec) (rt : List (String × Toml)) (n : String) :
    (loadRegistersNames s rt).2 ≠ some (.DuplicateInstruction n) := by
  unfold loadRegistersNames
  repeat' split
  all_goals simp [loadRegNamesList_ne_dup]

theorem loadRegistersLengths_ne_dup (s : RiscVSpec) (rt : List (String × Toml)) (n : String) :
    (loadRegistersLengths s rt).2 ≠ some (.DuplicateInstruction n) := by
  unfold loadRegistersLengths
  repeat' split
  all_goals simp [loadRegLengthsList_ne_dup]

theorem loadRegisters_ne_dup (s : RiscVSpec) (d : Toml) (n : String) :
    (loadRegisters s d).2 ≠ some (.DuplicateInstruction n) := by
  unfold loadRegisters
  split
  · simp
  · split
    · simp
    · rename_i kvs heq0
      rcases hrn : loadRegistersNames s kvs with ⟨s1, e1⟩
      cases e1 with
      | some e =>
        have h1 := loadRegistersNames_ne_dup s kvs n
        rw [hrn] at h1
        intro hc
        simp only [Option.some.injEq] at hc
        subst hc
        exact h1 rfl
      | none => exact loadRegistersLengths_ne_dup s1 kvs n

theorem parseEncList_ne_dup (l : List Toml) :
    ∀ (c : List (String × Nat)) (f1 f2 : String) (n : String) (e : LoadError),
      parseEncList c f1 f2 l = .error e → e ≠ .DuplicateInstruction n := by
  induction l with
  | nil => intro c f1 f2 n e h; cases h
  | cons val t ih =>
    intro c f1 f2 n e h
    unfold parseEncList at h
    repeat' split at h
    all_goals solve
      | cases h
      | (cases h; solve
          | simp
          | (intro hc; subst hc; exact toml_int_ne_dup _ _ _ _ (by assumption))
          | exact ih c f1 f2 n _ (by assumption))
      | simp

theorem parseField_ne_dup (c : List (String × Nat)) (f1 f2 : String) (ft : Toml) (n : String)
    (e : LoadError) (h : parseField c f1 f2 ft = .error e) : e ≠ .DuplicateInstruction n := by
  unfold parseField at h
  repeat' split at h
  all_goals solve
    | cases h
    | (cases h; solve
        | simp
        | (intro hc; subst hc; exact toml_int_ne_dup _ _ _ _ (by assumption))
        | exact parseEncList_ne_dup _ _ _ _ n _ (by assumption))
    | simp

theorem parseFieldsList_ne_dup (l : List (String × Toml)) :
    ∀ (c : List (String × Nat)) (f1 : String) (n : String) (e : LoadError),
      parseFieldsList c f1 l = .error e → e ≠ .DuplicateInstruction n := by
  induction l with
  | nil => intro c f1 n e h; cases h
  | cons kv t ih =>
    intro c f1 n e h
    unfold parseFieldsList at h
    repeat' split at h
    all_goals solve
      | cases h
      | (cases h; solve
          | simp
          | exact parseField_ne_dup _ _ _ _ n _ (by assumption)
          | exact ih c f1 n _ (by assumption))
      | simp

theorem loadFormatsList_ne_dup (l : List (String × Toml)) :
    ∀ (s : RiscVSpec) (n : String),
      (loadFormatsList s l).2 ≠ some (.DuplicateInstruction n) := by
  induction l with
  | nil => intro s n; simp [loadFormatsList]
  | cons kv t ih =>
    intro s n
    obtain ⟨k, v⟩ := kv
    unfold loadFormatsList
    try dsimp only
    repeat' split
    all_goals solve
      | simp
      | exact ih _ n
      | (intro hc
         try simp only [Option.some.injEq] at hc
         subst hc
         exact parseFieldsList_ne_dup _ _ _ n _ (by assumption) rfl)

theorem loadFormats_ne_dup (s : RiscVSpec) (d : Toml) (n : String) :
    (loadFormats s d).2 ≠ some (.DuplicateInstruction n) := by
  unfold loadFormats
  repeat' split
  all_goals simp [loadFormatsList_ne_dup]

theorem parseArgsList_ne_dup (l : List Toml) :
    ∀ (fmt : InstructionFormat) (iname : String) (n : String) (e : LoadError),
      parseArgsList fmt iname l = .error e → e ≠ .DuplicateInstruction n := by
  induction l with
  | nil => intro fmt iname n e h; cases h
  | cons argv t ih =>
    intro fmt iname n e h
    unfold parseArgsList at h
    repeat' split at h
    all_goals solve
      | cases h
      | (cases h; solve
          | simp
          | exact ih fmt iname n _ (by assumption))
      | simp

theorem parseInsnFields_ne_dup (l : List (String × Toml)) :
    ∀ (c : List (String × Nat)) (fmt : InstructionFormat) (iname : String) (n : String)
      (e : LoadError), parseInsnFields c fmt iname l = .error e →
      e ≠ .DuplicateInstruction n := by
  induction l with
  | nil => intro c fmt iname n e h; cases h
  | cons kv t ih =>
    intro c fmt iname n e h
    unfold parseInsnFields at h
    repeat' split at h
    all_goals solve
      | cases h
      | (cases h; solve
          | simp
          | (intro hc; subst hc; exact toml_int_ne_dup _ _ _ _ (by assumption))
          | exact ih c fmt iname n _ (by assumption))
      | simp

theorem parseInstructionEntry_ne_dup (s : RiscVSpec) (iname : String) (it : Toml) (n : String)
    (e : LoadError) (h : parseInstructionEntry s iname it = .error e) :
    e ≠ .DuplicateInstruction n := by
  unfold parseInstructionEntry at h
  repeat' first
    | split at h
    | dsimp only at h
  all_goals solve
    | cases h
    | (cases h; solve
        | simp
        | exact parseArgsList_ne_dup _ _ _ n _ (by assumption)
        | exact parseInsnFields_ne_dup _ _ _ _ n _ (by assumption))
    | simp

/-! The instructions loop: duplicate detection and the state it leaves
behind on failure. -/

theorem parseInstructionEntry_congr (s s2 : RiscVSpec) (iname : String) (it : Toml)
    (hf : s2.instruction_formats = s.instruction_formats) (hc : s2.consts = s.consts) :
    parseInstructionEntry s2 iname it = parseInstructionEntry s iname it := by
  unfold parseInstructionEntry
  rw [hf, hc]

theorem loadInstructionsList_no_dup (l : List (String × Toml)) :
    ∀ s : RiscVSpec,
      (∀ kv ∈ l, alGet s.instruction_name_lookup (toAsciiLower kv.1) = none) →
      (l.map (fun kv => toAsciiLower kv.1)).Nodup →
      ∀ n, (loadInstructionsList s l).2 ≠ some (.DuplicateInstruction n) := by
  induction l with
  | nil => intro s _ _ n; simp [loadInstructionsList]
  | cons kv t ih =>
    intro s hfresh hnd n
    obtain ⟨k, v⟩ := kv
    unfold loadInstructionsList
    dsimp only
    split
    · rename_i e heq
      intro hc
      simp only [Option.some.injEq] at hc
      exact parseInstructionEntry_ne_dup s (toAsciiLower k) v n e heq hc
    · rename_i insn heq
      have hk : alGet s.instruction_name_lookup (toAsciiLower k) = none :=
        hfresh (k, v) (List.mem_cons_self _ _)
      have hsnd :
          (alInsert s.instruction_name_lookup (toAsciiLower k) s.instructions.length).2
            = none := by
        rw [alInsert_snd]; exact hk
      rw [hsnd]
      simp only [Option.isSome_none, Bool.false_eq_true, if_false]
      apply ih
      · intro kv2 hkv2
        have hne : toAsciiLower kv2.1 ≠ toAsciiLower k := by
          intro hcontra
          apply (List.nodup_cons.mp hnd).1
          show toAsciiLower k ∈ List.map (fun kv => toAsciiLower kv.1) t
          rw [← hcontra]
          exact List.mem_map_of_mem (fun p => toAsciiLower p.1) hkv2
        show alGet (alInsert s.instruction_name_lookup (toAsciiLower k)
            s.instructions.length).1 (toAsciiLower kv2.1) = none
        rw [alGet_alInsert_ne _ _ _ _ (Ne.symm hne)]
        exact hfresh kv2 (List.mem_cons_of_mem _ hkv2)
      · exact (List.nodup_cons.mp hnd).2

theorem loadInstructionsList_dup_of_present (l : List (String × Toml)) :
    ∀ s : RiscVSpec,
      (∀ kv ∈ l, (parseInstructionEntry s (toAsciiLower kv.1) kv.2).toOption.isSome = true) →
      (l.map (fun kv => toAsciiLower kv.1)).Nodup →
      ∀ kv0 ∈ l, (alGet s.instruction_name_lookup (toAsciiLower kv0.1)).isSome = true →
        ∃ n, (loadInstructionsList s l).2 = some (.DuplicateInstruction n) ∧
          (alGet s.instruction_name_lookup n).isSome = true ∧
          n ∈ l.map (fun kv => toAsciiLower kv.1) := by
  induction l with
  | nil => intro s _ _ kv0 h0; cases h0
  | cons kv t ih =>
    intro s hp hnd kv0 hkv0 hpresent
    obtain ⟨k, v⟩ := kv
    unfold loadInstructionsList
    dsimp only
    split
    · rename_i e heq
      have := hp (k, v) (List.mem_cons_self _ _)
      rw [heq] at this
      cases this
    · rename_i insn heq
      by_cases hhead : (alGet s.instruction_name_lookup (toAsciiLower k)).isSome = true
      · refine ⟨toAsciiLower k, ?_, hhead, List.mem_map_of_mem _ (List.mem_cons_self _ _)⟩
        have hsnd :
            (alInsert s.instruction_name_lookup (toAsciiLower k) s.instructions.length).2.isSome
              = true := by
          rw [alInsert_snd]; exact hhead
        rw [hsnd]
        simp
      · have hsome : kv0 ∈ t := by
          rcases List.mem_cons.mp hkv0 with h0 | h0
          · subst h0; exact absurd hpresent hhead
          · exact h0
        have hne0 : toAsciiLower kv0.1 ≠ toAsciiLower k := by
          intro hcontra
          apply (List.nodup_cons.mp hnd).1
          show toAsciiLower k ∈ List.map (fun kv => toAsciiLower kv.1) t
          rw [← hcontra]
          exact List.mem_map_of_mem (fun p => toAsciiLower p.1) hsome
        have hsnd :
            (alInsert s.instruction_name_lookup (toAsciiLower k) s.instructions.length).2
              = none := by
          rw [alInsert_snd]
          cases hg : alGet s.instruction_name_lookup (toAsciiLower k)
          · rfl
          · exact absurd (by rw [hg]; rfl) hhead
        rw [hsnd]
        simp only [Option.isSome_none, Bool.false_eq_true, if_false]
        obtain ⟨n, hres, hpr, hmem⟩ := ih
          { s with
              instructions := s.instructions ++ [insn],
              instruction_name_lookup :=
                (alInsert s.instruction_name_lookup (toAsciiLower k)
                  s.instructions.length).1 }
          (fun kv2 hkv2 => hp kv2 (List.mem_cons_of_mem _ hkv2))
          (List.nodup_cons.mp hnd).2 kv0 hsome
          (by
            show (alGet (alInsert s.instruction_name_lookup (toAsciiLower k)
                s.instructions.length).1 (toAsciiLower kv0.1)).isSome = true
            rw [alGet_alInsert_ne _ _ _ _ (Ne.symm hne0)]
            exact hpresent)
        have hpr2 : (alGet (alInsert s.instruction_name_lookup (toAsciiLower k)
            s.instructions.length).1 n).isSome = true := hpr
        refine ⟨n, hres, ?_, List.mem_map.mpr ?_⟩
        · have hnen : n ≠ toAsciiLower k := by
            intro hcontra
            apply (List.nodup_cons.mp hnd).1
            show toAsciiLower k ∈ List.map (fun kv => toAsciiLower kv.1) t
            rw [← hcontra]
            exact hmem
          rw [alGet_alInsert_ne _ _ _ _ (Ne.symm hnen)] at hpr2
          exact hpr2
        · obtain ⟨p, hpmem, hpn⟩ := List.mem_map.mp hmem
          exact ⟨p, List.mem_cons_of_mem _ hpmem, hpn⟩

theorem loadInstructionsList_dup_dangles (l : List (String × Toml)) :
    ∀ (s : RiscVSpec) (n : String),
      (loadInstructionsList s l).2 = some (.DuplicateInstruction n) →
      alGet (loadInstructionsList s l).1.instruction_name_lookup n
          = some (loadInstructionsList s l).1.instructions.length ∧
      ((loadInstructionsList s l).1).get_instruction_by_name n = none := by
  induction l with
  | nil => intro s n h; cases h
  | cons kv t ih =>
    intro s n h
    obtain ⟨k, v⟩ := kv
    unfold loadInstructionsList at h ⊢
    dsimp only at h ⊢
    split at h
    · rename_i e heq
      simp only [Option.some.injEq] at h
      exact absurd h (parseInstructionEntry_ne_dup s (toAsciiLower k) v n e heq)
    · rename_i insn heq
      by_cases hsnd :
          (alInsert s.instruction_name_lookup (toAsciiLower k) s.instructions.length).2.isSome
            = true
      · rw [if_pos hsnd] at h ⊢
        simp only [Option.some.injEq, LoadError.DuplicateInstruction.injEq] at h
        subst h
        dsimp only
        constructor
        · exact alGet_alInsert_self _ _ _
        · unfold RiscVSpec.get_instruction_by_name
          dsimp only
          rw [toAsciiLower_idem, alGet_alInsert_self]
          unfold RiscVSpec.get_instruction
          dsimp only
          simp [List.get?_eq_none]
      · rw [if_neg hsnd] at h ⊢
        exact ih _ n h

theorem loadInstructions_dup_dangles (s : RiscVSpec) (d : Toml) (n : String)
    (h : (loadInstructions s d).2 = some (.DuplicateInstruction n)) :
    alGet (loadInstructions s d).1.instruction_name_lookup n
        = some (loadInstructions s d).1.instructions.length ∧
    ((loadInstructions s d).1).get_instruction_by_name n = none := by
  unfold loadInstructions at h ⊢
  rcases hg : d.get? "instructions" with _ | it
  · rw [hg] at h; dsimp only at h; cases h
  · rw [hg] at h
    dsimp only at h ⊢
    rcases ht : it.asTable with _ | list
    · rw [ht] at h; simp at h
    · rw [ht] at h
      dsimp only at h ⊢
      exact loadInstructionsList_dup_dangles list s n h

/-! Register name lookup rebuild. -/

theorem alGet_mem_nodup {κ ν : Type} [DecidableEq κ] (m : List (κ × ν)) :
    (m.map Prod.fst).Nodup → ∀ p ∈ m, alGet m p.1 = some p.2 := by
  induction m with
  | nil => intro _ p hp; cases hp
  | cons hd t ih =>
    intro hnd p hp
    simp only [List.map_cons, List.nodup_cons] at hnd
    rcases List.mem_cons.mp hp with h | h
    · subst h
      simp [alGet]
    · have hne : hd.1 ≠ p.1 := by
        intro hc
        apply hnd.1
        rw [hc]
        exact List.mem_map_of_mem Prod.fst h
      simp only [alGet, hne, if_false]
      exact ih hnd.2 p h

theorem regNamesFold_get_notmem (ns : List String) (k : Int) :
    ∀ (acc : List (String × Int)) (nm : String), nm ∉ ns →
      alGet (ns.foldl (fun a n => (alInsert a n k).1) acc) nm = alGet acc nm := by
  induction ns with
  | nil => intro acc nm _; rfl
  | cons n ns ih =>
    intro acc nm hnm
    have h1 : nm ∉ ns := fun h => hnm (List.mem_cons_of_mem _ h)
    have h2 : nm ≠ n := fun h => hnm (by rw [h]; exact List.mem_cons_self n ns)
    simp only [List.foldl_cons]
    rw [ih _ nm h1, alGet_alInsert_ne _ _ _ _ (Ne.symm h2)]

theorem regNamesFold_get_mem (ns : List String) (k : Int) :
    ∀ (acc : List (String × Int)) (nm : String), nm ∈ ns →
      alGet (ns.foldl (fun a n => (alInsert a n k).1) acc) nm = some k := by
  induction ns with
  | nil => intro acc nm h; cases h
  | cons n ns ih =>
    intro acc nm hnm
    simp only [List.foldl_cons]
    by_cases h1 : nm ∈ ns
    · exact ih _ nm h1
    · have h2 : nm = n := by
        rcases List.mem_cons.mp hnm with h | h
        · exact h
        · exact absurd h h1
      subst h2
      rw [regNamesFold_get_notmem ns k _ nm h1, alGet_alInsert_self]

theorem rebuildFold_notmem (regs : List (Int × Register)) :
    ∀ (acc : List (String × Int)) (nm : String), (∀ r ∈ regs, nm ∉ r.2.names) →
      alGet (regs.foldl
          (fun acc q => q.2.names.foldl (fun a n => (alInsert a n q.1).1) acc) acc) nm
        = alGet acc nm := by
  induction regs with
  | nil => intro acc nm _; rfl
  | cons q t ih =>
    intro acc nm h
    simp only [List.foldl_cons]
    rw [ih _ nm (fun r hr => h r (List.mem_cons_of_mem _ hr)),
      regNamesFold_get_notmem _ _ _ nm (h q (List.mem_cons_self _ _))]

theorem rebuildFold_get (regs : List (Int × Register)) :
    ∀ acc : List (String × Int),
      (regs.map Prod.fst).Nodup → PairwiseDisjointNames regs →
      ∀ p ∈ regs, ∀ nm ∈ p.2.names,
        alGet (regs.foldl
            (fun acc q => q.2.names.foldl (fun a n => (alInsert a n q.1).1) acc) acc) nm
          = some p.1 := by
  induction regs with
  | nil => intro acc _ _ p hp; cases hp
  | cons q t ih =>
    intro acc hnd hdisj p hp nm hnm
    simp only [List.map_cons, List.nodup_cons] at hnd
    simp only [List.foldl_cons]
    rcases List.mem_cons.mp hp with hpq | hpt
    · subst hpq
      have hnone : ∀ r ∈ t, nm ∉ r.2.names := by
        intro r hr hmem2
        have hne : p.1 ≠ r.1 := by
          intro hcontra
          apply hnd.1
          rw [hcontra]
          exact List.mem_map_of_mem Prod.fst hr
        exact hdisj p (List.mem_cons_self _ _) r (List.mem_cons_of_mem _ hr) hne nm hnm hmem2
      rw [rebuildFold_notmem t _ nm hnone, regNamesFold_get_mem _ _ _ nm hnm]
    · refine ih _ hnd.2 ?_ p hpt nm hnm
      intro a ha b hb hne nm2 hnm2
      exact hdisj a (List.mem_cons_of_mem _ ha) b (List.mem_cons_of_mem _ hb) hne nm2 hnm2

/-- A successful load always ends by rebuilding the register name lookup. -/
theorem load_single_toml_success_rebuild (s0 : RiscVSpec) (doc : Toml) :
    (load_single_toml s0 doc).2 = none →
    ∃ s5, load_single_toml s0 doc = (rebuildRegisterNameLookup s5, none) := by
  intro hok
  unfold load_single_toml at hok ⊢
  rcases h1 : loadMeta s0 doc with ⟨s1, e1⟩
  rw [h1] at hok
  cases e1 with
  | some e => dsimp only at hok; cases hok
  | none =>
    dsimp only at hok ⊢
    rcases h2 : checkRequires s1 doc with _ | e2
    all_goals rw [h2] at hok
    case some => dsimp only at hok; cases hok
    case none =>
    dsimp only at hok ⊢
    rcases h3 : loadConsts s1 doc with ⟨s2, e3⟩
    rw [h3] at hok
    cases e3 with
    | some e => dsimp only at hok; cases hok
    | none =>
    dsimp only at hok ⊢
    rcases h4 : loadRegisters s2 doc with ⟨s3, e4⟩
    rw [h4] at hok
    cases e4 with
    | some e => dsimp only at hok; cases hok
    | none =>
    dsimp only at hok ⊢
    rcases h5 : loadFormats s3 doc with ⟨s4, e5⟩
    rw [h5] at hok
    cases e5 with
    | some e => dsimp only at hok; cases hok
    | none =>
    dsimp only at hok ⊢
    rcases h6 : loadInstructions s4 doc with ⟨s5, e6⟩
    rw [h6] at hok
    cases e6 with
    | some e => dsimp only at hok; cases hok
    | none => exact ⟨s5, rfl⟩

/-! Format ilen: folds of max. -/

theorem foldr_max_nonneg (l : List Int) : 0 ≤ l.foldr max 0 := by
  induction l with
  | nil => simp
  | cons a t ih => exact le_max_of_le_right ih

theorem foldr_max_lt (l : List Int) (B : Int) (hB : 0 < B) :
    (∀ x ∈ l, x < B) → l.foldr max 0 < B := by
  induction l with
  | nil => intro _; simpa using hB
  | cons a t ih =>
    intro h
    exact max_lt (h a (List.mem_cons_self a t))
      (ih (fun x hx => h x (List.mem_cons_of_mem _ hx)))

theorem foldl_max_init (t : List Int) :
    ∀ x y : Int, t.foldl max (max x y) = max x (t.foldl max y) := by
  induction t with
  | nil => intro x y; rfl
  | cons a t ih =>
    intro x y
    show t.foldl max (max (max x y) a) = max x (t.foldl max (max y a))
    rw [max_assoc, ih]

theorem foldl_max_eq_foldr (t : List Int) : ∀ y : Int, t.foldl max y = t.foldr max y := by
  induction t with
  | nil => intro y; rfl
  | cons a t ih =>
    intro y
    show t.foldl max (max y a) = max a (t.foldr max y)
    rw [max_comm y a, foldl_max_init, ih]

theorem iterMaxOr0_eq_foldr (l : List Int) (h : ∀ x ∈ l, 0 ≤ x) :
    iterMaxOr0 l = l.foldr max 0 := by
  cases l with
  | nil => rfl
  | cons x t =>
    show t.foldl max x = max x (t.foldr max 0)
    calc t.foldl max x = t.foldl max (max x 0) := by
          rw [max_eq_left (h x (List.mem_cons_self x t))]
      _ = max x (t.foldl max 0) := foldl_max_init t x 0
      _ = max x (t.foldr max 0) := by rw [foldl_max_eq_foldr]

theorem foldr_max_init_nonneg (l : List Int) :
    ∀ c : Int, 0 ≤ c → l.foldr max c = max (l.foldr max 0) c := by
  induction l with
  | nil => intro c hc; simp [max_eq_right hc]
  | cons a t ih =>
    intro c hc
    show max a (t.foldr max c) = max (max a (t.foldr max 0)) c
    rw [ih c hc, ← max_assoc]

theorem foldr_max_flatMap_map {α β : Type} (g : α → List β) (h : β → Int) (L : List α) :
    ((L.flatMap g).map h).foldr max 0
      = (L.map (fun x => ((g x).map h).foldr max 0)).foldr max 0 := by
  induction L with
  | nil => rfl
  | cons a t ih =>
    simp only [List.flatMap_cons, List.map_cons, List.map_append, List.foldr_append,
      List.foldr]
    rw [foldr_max_init_nonneg _ _ (foldr_max_nonneg _), ih]

/-- Every format that satisfies the raw ilen equation of the loader also
satisfies the specified formula, provided its bit-range components sit in
the documented i32 ranges. -/
theorem FormatIlenEq_to_Ok (f : InstructionFormat) (heq : FormatIlenEq f) : FormatIlenOk f := by
  intro hrange
  have hlast_nonneg : ∀ m ∈ formatMaps f, (0 : Int) ≤ m.instruction_last := by
    intro m hm
    obtain ⟨h1, h2, h3, h4, h5⟩ := hrange m hm
    simp only [BitRangeMap.instruction_last]
    omega
  have hmemF : ∀ e ∈ f.fields, ∀ m ∈ e.encoding, m ∈ formatMaps f := by
    intro e he m hm
    exact List.mem_flatMap.mpr ⟨e, he, hm⟩
  have hfield : ∀ e ∈ f.fields,
      InstructionField.calculate_last_encoded_bit_index e
        = (e.encoding.map (fun m => m.instruction_last)).foldr max 0 := by
    intro e he
    unfold InstructionField.calculate_last_encoded_bit_index
    refine iterMaxOr0_eq_foldr _ ?_
    intro x hx
    obtain ⟨m, hm, hmx⟩ := List.mem_map.mp hx
    rw [← hmx]
    exact hlast_nonneg m (hmemF e he m hm)
  have hcalc : f.calculate_last_encoded_bit_index
      = ((formatMaps f).map (fun m => m.instruction_last)).foldr max 0 := by
    unfold InstructionFormat.calculate_last_encoded_bit_index
    rw [List.map_congr_left hfield]
    rw [iterMaxOr0_eq_foldr _ (by
      intro x hx
      obtain ⟨e, he, hex⟩ := List.mem_map.mp hx
      rw [← hex]
      exact foldr_max_nonneg _)]
    unfold formatMaps
    rw [← foldr_max_flatMap_map]
  have hMn : 0 ≤ f.calculate_last_encoded_bit_index := by
    rw [hcalc]; exact foldr_max_nonneg _
  have hMlt : f.calculate_last_encoded_bit_index < 2 ^ 32 := by
    rw [hcalc]
    refine foldr_max_lt _ _ (by norm_num) ?_
    intro x hx
    obtain ⟨m, hm, hmx⟩ := List.mem_map.mp hx
    rw [← hmx]
    obtain ⟨h1, h2, h3, h4, h5⟩ := hrange m hm
    simp only [BitRangeMap.instruction_last]
    have e31 : (2 : Int) ^ 31 = 2147483648 := by norm_num
    have e32 : (2 : Int) ^ 32 = 4294967296 := by norm_num
    rw [e31] at h3 h5
    rw [e32]
    omega
  have hasU : asUsize f.calculate_last_encoded_bit_index
      = f.calculate_last_encoded_bit_index.toNat := by
    unfold asUsize
    congr 1
    refine Int.emod_eq_of_lt hMn (lt_trans hMlt (by norm_num))
  have h32 : f.calculate_last_encoded_bit_index.toNat < 2 ^ 32 := by
    have e32 : (2 : Int) ^ 32 = 4294967296 := by norm_num
    rw [e32] at hMlt
    have e32n : (2 : Nat) ^ 32 = 4294967296 := by norm_num
    rw [e32n]
    omega
  have hilen : f.ilen = f.calculate_last_encoded_bit_index.toNat + 1 := by
    rw [heq, hasU]
    refine Nat.mod_eq_of_lt ?_
    have e32n : (2 : Nat) ^ 32 = 4294967296 := by norm_num
    have e64n : (2 : Nat) ^ 64 = 18446744073709551616 := by norm_num
    rw [e32n] at h32
    rw [e64n]
    omega
  rw [hilen, ← hcalc]
  push_cast
  rw [Int.toNat_of_nonneg hMn]
  ring

/-- Every format present after the instruction_formats loop is either an
old format of the incoming spec or carries the ilen the loop computes. -/
theorem loadFormatsList_ilen (l : List (String × Toml)) :
    ∀ s : RiscVSpec, ∀ f ∈ (loadFormatsList s l).1.instruction_formats,
      f ∈ s.instruction_formats ∨ FormatIlenEq f := by
  induction l with
  | nil => intro s f hf; exact Or.inl hf
  | cons kv t ih =>
    intro s f hf
    obtain ⟨k, v⟩ := kv
    unfold loadFormatsList at hf
    dsimp only at hf
    split at hf
    · exact Or.inl hf
    · split at hf
      · exact Or.inl hf
      · rcases ih _ f hf with hin | hok
        · rcases List.mem_append.mp hin with h1 | h1
          · exact Or.inl h1
          · obtain rfl := List.mem_singleton.mp h1
            exact Or.inr rfl
        · exact Or.inr hok

theorem loadFormats_ilen (s : RiscVSpec) (d : Toml) :
    ∀ f ∈ (loadFormats s d).1.instruction_formats,
      f ∈ s.instruction_formats ∨ FormatIlenEq f := by
  unfold loadFormats
  rcases hg : d.get? "instruction_formats" with _ | it
  · exact fun f hf => Or.inl hf
  · dsimp only
    rcases ht : it.asTable with _ | list
    · exact fun f hf => Or.inl hf
    · exact loadFormatsList_ilen list s

/-- Every format present after a whole load_single_toml call is either an
old format of the incoming spec or satisfies the loader's ilen equation. -/
theorem load_single_toml_formats (s0 : RiscVSpec) (d : Toml) :
    ∀ f ∈ (load_single_toml s0 d).1.instruction_formats,
      f ∈ s0.instruction_formats ∨ FormatIlenEq f := by
  unfold load_single_toml
  rcases h1 : loadMeta s0 d with ⟨s1, e1⟩
  have hp1 := (loadMeta_parts s0 d).2.2.2.1
  rw [h1] at hp1
  cases e1 with
  | some e => intro f hf; dsimp only at hf; rw [hp1] at hf; exact Or.inl hf
  | none =>
    dsimp only
    rcases h2 : checkRequires s1 d with _ | e2
    case some => intro f hf; dsimp only at hf; rw [hp1] at hf; exact Or.inl hf
    case none =>
    dsimp only
    rcases h3 : loadConsts s1 d with ⟨s2, e3⟩
    have hp3 := (loadConsts_parts s1 d).2.2.1
    rw [h3] at hp3
    cases e3 with
    | some e =>
      intro f hf; dsimp only at hf; rw [hp3, hp1] at hf; exact Or.inl hf
    | none =>
    dsimp only
    rcases h4 : loadRegisters s2 d with ⟨s3, e4⟩
    have hp4 := (loadRegisters_parts s2 d).2.2.1
    rw [h4] at hp4
    cases e4 with
    | some e =>
      intro f hf; dsimp only at hf; rw [hp4, hp3, hp1] at hf; exact Or.inl hf
    | none =>
    dsimp only
    rcases h5 : loadFormats s3 d with ⟨s4, e5⟩
    have hfl := loadFormats_ilen s3 d
    rw [h5] at hfl
    have hs3 : s3.instruction_formats = s0.instruction_formats := by
      rw [hp4, hp3, hp1]
    cases e5 with
    | some e =>
      intro f hf
      dsimp only at hf
      rcases hfl f hf with hin | hok
      · rw [hs3] at hin; exact Or.inl hin
      · exact Or.inr hok
    | none =>
    dsimp only
    rcases h6 : loadInstructions s4 d with ⟨s5, e6⟩
    have hp6 := (loadInstructions_parts s4 d).2.2.2
    rw [h6] at hp6
    have hmem : ∀ f ∈ s5.instruction_formats,
        f ∈ s0.instruction_formats ∨ FormatIlenEq f := by
      intro f hf
      rw [hp6] at hf
      rcases hfl f hf with hin | hok
      · rw [hs3] at hin; exact Or.inl hin
      · exact Or.inr hok
    cases e6 with
    | some e => intro f hf; dsimp only at hf; exact hmem f hf
    | none =>
      intro f hf
      dsimp only at hf
      exact hmem f hf

/-- C4 (amended): when every format already stored in the spec satisfies
the loader's ilen equation -- in particular when the spec is fresh -- every
format present after load_single_toml has, under the documented i32 ranges
of its bit-range maps, ilen equal to 1 plus the largest
instruction_first + value_last - value_first over all of its fields'
encodings; the maximum is taken as 0 when there are no encodings, so a
format with no fields has ilen 1, not 0. -/
theorem C4_format_ilen (s0 : RiscVSpec) (doc : Toml) (f : InstructionFormat)
    (hold : ∀ g ∈ s0.instruction_formats, FormatIlenEq g)
    (hf : f ∈ (load_single_toml s0 doc).1.instruction_formats) :
    FormatIlenOk f := by
  rcases load_single_toml_formats s0 doc f hf with h | h
  · exact FormatIlenEq_to_Ok f (hold f h)
  · exact FormatIlenEq_to_Ok f h

/-- Witness for C4: the single-field 8-bit format G of rvDocOneFormat is
loaded with ilen 8, one past its largest encoded instruction bit 7. -/
theorem C4_format_ilen_witness :
    ((⟨"G", [⟨"c", FieldType.Value, 8, [⟨7, 0, 0⟩]⟩], 8⟩ : InstructionFormat).ilen : Int)
      = 1 + ((formatMaps ⟨"G", [⟨"c", FieldType.Value, 8, [⟨7, 0, 0⟩]⟩], 8⟩).map
          (fun m => m.instruction_last)).foldr max 0 :=
  C4_format_ilen RiscVSpec.new rvDocOneFormat
    ⟨"G", [⟨"c", FieldType.Value, 8, [⟨7, 0, 0⟩]⟩], 8⟩
    (fun g hg => absurd hg (List.not_mem_nil g)) (by decide) (by decide)

/-- Counterexample for C4 as stated: loading rvDocEmptyFormat, whose format
F has no fields, produces ilen 1 -- the claimed value 0 never occurs
because the empty maximum defaults to 0 and the loader adds 1. -/
theorem C4_empty_format_cex :
    (load_single_toml RiscVSpec.new rvDocEmptyFormat).1.instruction_formats
        = [⟨"F", [], 1⟩] ∧ (1 : Nat) ≠ 0 := by
  exact ⟨by decide, by decide⟩

/-- C10: when load_single_toml fails with DuplicateInstruction n, the
instruction name lookup of the resulting spec state already maps n to
instructions.len() -- one past the end of the instruction table, since the
duplicate entry is never pushed -- so get_instruction_by_name n now returns
none even if it resolved to an instruction before the call: the failed load
degrades the earlier state. -/
theorem C10_duplicate_error_dangles (s0 : RiscVSpec) (doc : Toml) (n : String)
    (h : (load_single_toml s0 doc).2 = some (.DuplicateInstruction n)) :
    alGet (load_single_toml s0 doc).1.instruction_name_lookup n
        = some (load_single_toml s0 doc).1.instructions.length ∧
    ((load_single_toml s0 doc).1).get_instruction_by_name n = none := by
  unfold load_single_toml at h ⊢
  rcases h1 : loadMeta s0 doc with ⟨s1, e1⟩
  rw [h1] at h
  cases e1 with
  | some e =>
    dsimp only at h
    have := loadMeta_ne_dup s0 doc n
    rw [h1] at this
    simp only [Option.some.injEq] at h
    exact absurd (congrArg some h) this
  | none =>
    dsimp only at h ⊢
    rcases h2 : checkRequires s1 doc with _ | e2
    all_goals rw [h2] at h
    case some =>
      dsimp only at h
      have := checkRequires_ne_dup s1 doc n
      rw [h2] at this
      simp only [Option.some.injEq] at h
      exact absurd (congrArg some h) this
    case none =>
    dsimp only at h ⊢
    rcases h3 : loadConsts s1 doc with ⟨s2, e3⟩
    rw [h3] at h
    cases e3 with
    | some e =>
      dsimp only at h
      have := loadConsts_ne_dup s1 doc n
      rw [h3] at this
      simp only [Option.some.injEq] at h
      exact absurd (congrArg some h) this
    | none =>
    dsimp only at h ⊢
    rcases h4 : loadRegisters s2 doc with ⟨s3, e4⟩
    rw [h4] at h
    cases e4 with
    | some e =>
      dsimp only at h
      have := loadRegisters_ne_dup s2 doc n
      rw [h4] at this
      simp only [Option.some.injEq] at h
      exact absurd (congrArg some h) this
    | none =>
    dsimp only at h ⊢
    rcases h5 : loadFormats s3 doc with ⟨s4, e5⟩
    rw [h5] at h
    cases e5 with
    | some e =>
      dsimp only at h
      have := loadFormats_ne_dup s3 doc n
      rw [h5] at this
      simp only [Option.some.injEq] at h
      exact absurd (congrArg some h) this
    | none =>
    dsimp only at h ⊢
    rcases h6 : loadInstructions s4 doc with ⟨s5, e6⟩
    rw [h6] at h
    cases e6 with
    | none => cases h
    | some e =>
      dsimp only at h ⊢
      have hl := loadInstructions_dup_dangles s4 doc n (by rw [h6]; exact h)
      rw [h6] at hl
      exact hl

/-- Witness for C10: rvDocNopFirst loads nop as instruction 0, so its
lookup by name succeeds; reloading it as rvDocNopAgain fails with
DuplicateInstruction "nop", after which the lookup table maps "nop" to the
length of the unchanged instruction table and the name no longer resolves. -/
theorem C10_duplicate_error_dangles_witness :
    RiscVSpec.get_instruction_by_name (load_single_toml RiscVSpec.new rvDocNopFirst).1 "nop"
        = some ⟨"nop", 0, [], []⟩
    ∧ (alGet (load_single_toml (load_single_toml RiscVSpec.new rvDocNopFirst).1
            rvDocNopAgain).1.instruction_name_lookup "nop"
          = some (load_single_toml (load_single_toml RiscVSpec.new rvDocNopFirst).1
            rvDocNopAgain).1.instructions.length
        ∧ RiscVSpec.get_instruction_by_name
            (load_single_toml (load_single_toml RiscVSpec.new rvDocNopFirst).1 rvDocNopAgain).1
            "nop" = none) :=
  ⟨by decide,
   C10_duplicate_error_dangles (load_single_toml RiscVSpec.new rvDocNopFirst).1
     rvDocNopAgain "nop" (by decide)⟩

/-- C6 (amended): for a document whose instruction keys have
pairwise-distinct lowercased names, the instructions loop reports no
DuplicateInstruction when every lowercased name is absent from the
instruction name lookup, and when some entry that parses has a lowercased
name already present in the lookup the loop fails with DuplicateInstruction
carrying one of the document's lowercased names that was already present. -/
theorem C6_duplicate_name_check (s : RiscVSpec) (l : List (String × Toml))
    (hnd : (l.map (fun kv => toAsciiLower kv.1)).Nodup) :
    ((∀ kv ∈ l, alGet s.instruction_name_lookup (toAsciiLower kv.1) = none) →
      ∀ n, (loadInstructionsList s l).2 ≠ some (.DuplicateInstruction n))
    ∧ ((∀ kv ∈ l, (parseInstructionEntry s (toAsciiLower kv.1) kv.2).toOption.isSome = true) →
      ∀ kv0 ∈ l, (alGet s.instruction_name_lookup (toAsciiLower kv0.1)).isSome = true →
        ∃ n, (loadInstructionsList s l).2 = some (.DuplicateInstruction n) ∧
          (alGet s.instruction_name_lookup n).isSome = true ∧
          n ∈ l.map (fun kv => toAsciiLower kv.1)) :=
  ⟨fun hf => loadInstructionsList_no_dup l s hf hnd,
   fun hp => loadInstructionsList_dup_of_present l s hp hnd⟩

/-- Witness for C6: loading the fresh instruction NOP into a spec that
holds only format F raises no duplicate error. -/
theorem C6_duplicate_name_check_witness :
    (loadInstructionsList (load_single_toml RiscVSpec.new rvDocEmptyFormat).1
        (instructionEntries rvDocFreshNop)).2 ≠ some (.DuplicateInstruction "nop") :=
  (C6_duplicate_name_check (load_single_toml RiscVSpec.new rvDocEmptyFormat).1
      (instructionEntries rvDocFreshNop) (by decide)).1 (by decide) "nop"

/-! Emitter alignment. -/

theorem align_round_up (a p : Nat) (ha : 0 < a) :
    (p + a - 1) / a * a = p + (a - p % a) % a := by
  by_cases h0 : p % a = 0
  · rw [h0, Nat.sub_zero, Nat.mod_self, Nat.add_zero]
    have hpq : p = a * (p / a) := by
      conv_lhs => rw [← Nat.div_add_mod p a]
      rw [h0, Nat.add_zero]
    obtain ⟨q, rfl⟩ : ∃ q, p = a * q := ⟨p / a, hpq⟩
    have h1 : a * q + a - 1 = a - 1 + a * q := by omega
    rw [h1, Nat.add_mul_div_left _ _ ha,
      Nat.div_eq_of_lt (show a - 1 < a by omega)]
    rw [show (0 + q) * a = a * q by ring]
  · have hr : p % a < a := Nat.mod_lt p ha
    have hpad : (a - p % a) % a = a - p % a := Nat.mod_eq_of_lt (by omega)
    rw [hpad]
    obtain ⟨q, hq⟩ : ∃ q, p = a * q + p % a := ⟨p / a, (Nat.div_add_mod p a).symm⟩
    generalize hrr : p % a = r at *
    subst hq
    have hexp : a * (q + 1) = a * q + a := by ring
    have h1 : a * q + r + a - 1 = (r - 1) + a * (q + 1) := by omega
    rw [h1, Nat.add_mul_div_left _ _ ha,
      Nat.div_eq_of_lt (show r - 1 < a by omega)]
    rw [show (0 + (q + 1)) * a = a * q + a by ring]
    omega

theorem accomodate_getD (st : BinaryEmitState) (c j : Nat) :
    (accomodate_bytes st c).1.out_buf.getD j 0
      = if j < st.out_buf.length then st.out_buf.getD j 0 else 0 := by
  unfold accomodate_bytes
  dsimp only
  split
  · by_cases hj : j < st.out_buf.length
    · rw [if_pos hj, lgetD_append_left _ _ _ hj]
    · rw [if_neg hj, lgetD_append_right _ _ _ (by omega), lgetD_replicate]
  · by_cases hj : j < st.out_buf.length
    · rw [if_pos hj]
    · rw [if_neg hj, lgetD_oob _ _ (by omega)]

theorem accomodate_out_pos (st : BinaryEmitState) (c : Nat) :
    (accomodate_bytes st c).1.out_pos = st.out_pos + c := rfl

theorem accomodate_length (st : BinaryEmitState) (c : Nat) :
    st.out_pos + c ≤ (accomodate_bytes st c).1.out_buf.length := by
  unfold accomodate_bytes
  dsimp only
  split
  · simp only [List.length_append, List.length_replicate]
    omega
  · omega

/-- What alignCursor guarantees: the cursor advances by exactly the claimed
padding amount, the buffer never shrinks, and every byte position reads
back either its old value or zero. -/
theorem alignCursor_spec (spec : RiscVSpec) (st st1 : BinaryEmitState)
    (h : alignCursor spec st = some st1) :
    0 < ialign_bytes spec ∧
    st1.out_pos = st.out_pos
        + (ialign_bytes spec - st.out_pos % ialign_bytes spec) % ialign_bytes spec ∧
    st.out_buf.length ≤ st1.out_buf.length ∧
    ∀ j, st1.out_buf.getD j 0
        = if j < st.out_buf.length then st.out_buf.getD j 0 else 0 := by
  unfold alignCursor at h
  dsimp only at h
  split at h
  · cases h
  · rename_i hia0
    have hia : 0 < ialign_bytes spec := Nat.pos_of_ne_zero hia0
    have halg := align_round_up (ialign_bytes spec) st.out_pos hia
    split at h
    · rename_i hne
      simp only [Option.some.injEq] at h
      subst h
      refine ⟨hia, ?_, ?_, ?_⟩
      · rw [accomodate_out_pos]
        omega
      · have := accomodate_length st
          ((st.out_pos + ialign_bytes spec - 1) / ialign_bytes spec * ialign_bytes spec
            - st.out_pos)
        have hge : st.out_pos ≤ (st.out_pos + ialign_bytes spec - 1) / ialign_bytes spec
            * ialign_bytes spec := by omega
        -- the buffer only ever grows in accomodate_bytes
        unfold accomodate_bytes
        dsimp only
        split
        · simp only [List.length_append]; omega
        · omega
      · intro j
        exact accomodate_getD st _ j
    · rename_i heqp
      simp only [Option.some.injEq] at h
      subst h
      refine ⟨hia, by omega, le_refl _, ?_⟩
      intro j
      by_cases hj : j < st.out_buf.length
      · rw [if_pos hj]
      · rw [if_neg hj, lgetD_oob _ _ (by omega)]

/-- C7 (amended): when emit_binary_recurse processes a spec-defined
instruction (any name other than .org and .ORG) and succeeds, the alignment
step advances the cursor by exactly
(ialign_bytes - out_pos mod ialign_bytes) mod ialign_bytes bytes, so the
instruction's first byte lands at the next multiple of ialign_bytes and no
padding is inserted when the cursor is already aligned -- but the skipped
gap bytes are only zero where the buffer grows: positions still inside the
old buffer keep their previous (possibly nonzero) contents, so the claimed
zero padding does not hold there. -/
theorem C7_alignment (spec : RiscVSpec) (st : BinaryEmitState) (iname : String)
    (args : List Node) (st2 : BinaryEmitState)
    (hn1 : iname ≠ ".org") (hn2 : iname ≠ ".ORG")
    (hok : emit_instruction spec st iname args = some (.ok st2)) :
    0 < ialign_bytes spec ∧
    (st.out_pos + (ialign_bytes spec - st.out_pos % ialign_bytes spec) % ialign_bytes spec)
        % ialign_bytes spec = 0 ∧
    (st.out_pos % ialign_bytes spec = 0 →
      (ialign_bytes spec - st.out_pos % ialign_bytes spec) % ialign_bytes spec = 0) ∧
    (∃ ib, st2.out_pos = st.out_pos
        + (ialign_bytes spec - st.out_pos % ialign_bytes spec) % ialign_bytes spec + ib) ∧
    ∀ j < st.out_pos
        + (ialign_bytes spec - st.out_pos % ialign_bytes spec) % ialign_bytes spec,
      st2.out_buf.getD j 0 = if j < st.out_buf.length then st.out_buf.getD j 0 else 0 := by
  unfold emit_instruction at hok
  rw [if_neg (by simp [hn1, hn2])] at hok
  repeat' first
    | split at hok
    | dsimp only at hok
  all_goals try cases hok
  rename_i x4 specinsn heq4 x3 fmt heq3 hargs x2 argv heq2 x1 st1 heq1 hmax x0 newslice heqenc
  obtain ⟨hia, hpos1, hlen1, hbuf1⟩ := alignCursor_spec spec st st1 heq1
  have halg := align_round_up (ialign_bytes spec) st.out_pos hia
  set c := (fmt.ilen + 7) / 8 with hc
  refine ⟨hia, ?_, ?_, ?_, ?_⟩
  · rw [← halg]
    exact Nat.mul_mod_left _ _
  · intro h0
    rw [h0, Nat.sub_zero, Nat.mod_self]
  · refine ⟨c, ?_⟩
    dsimp only
    rw [accomodate_out_pos, hpos1]
  · intro j hj
    dsimp only
    have hlenacc := accomodate_length st1 c
    have hjlt : j < st1.out_pos := by omega
    have htk : j < (List.take st1.out_pos (accomodate_bytes st1 c).1.out_buf).length := by
      rw [List.length_take]
      omega
    have hsp : (accomodate_bytes st1 c).2.1 = st1.out_pos := rfl
    rw [hsp]
    first
      | rw [lgetD_append_left _ _ _ htk]
      | (rw [lgetD_append_left _ _ _
            (show j < (List.take st1.out_pos (accomodate_bytes st1 c).1.out_buf
                ++ newslice).length by
              rw [List.length_append, List.length_take]; omega)]
         rw [lgetD_append_left _ _ _ htk])
    rw [lgetD_take _ _ _ hjlt, accomodate_getD]
    by_cases hj1 : j < st1.out_buf.length
    · rw [if_pos hj1]
      exact hbuf1 j
    · rw [if_neg hj1, if_neg (show ¬ j < st.out_buf.length by omega)]

/-- Witness for C7: emitting the 8-bit instruction b at unaligned cursor 1
with 4-byte alignment pads 3 bytes, landing the instruction byte at 4. -/
theorem C7_alignment_witness :
    0 < ialign_bytes rvSpecTwoInsns ∧
    (rvStateAfterOrg.out_pos + (ialign_bytes rvSpecTwoInsns
        - rvStateAfterOrg.out_pos % ialign_bytes rvSpecTwoInsns)
        % ialign_bytes rvSpecTwoInsns) % ialign_bytes rvSpecTwoInsns = 0 ∧
    (rvStateAfterOrg.out_pos % ialign_bytes rvSpecTwoInsns = 0 →
      (ialign_bytes rvSpecTwoInsns - rvStateAfterOrg.out_pos % ialign_bytes rvSpecTwoInsns)
        % ialign_bytes rvSpecTwoInsns = 0) ∧
    (∃ ib, (⟨[147, 0, 16, 0, 19], 5⟩ : BinaryEmitState).out_pos
        = rvStateAfterOrg.out_pos + (ialign_bytes rvSpecTwoInsns
            - rvStateAfterOrg.out_pos % ialign_bytes rvSpecTwoInsns)
            % ialign_bytes rvSpecTwoInsns + ib) ∧
    ∀ j < rvStateAfterOrg.out_pos + (ialign_bytes rvSpecTwoInsns
        - rvStateAfterOrg.out_pos % ialign_bytes rvSpecTwoInsns) % ialign_bytes rvSpecTwoInsns,
      (⟨[147, 0, 16, 0, 19], 5⟩ : BinaryEmitState).out_buf.getD j 0
        = if j < rvStateAfterOrg.out_buf.length then rvStateAfterOrg.out_buf.getD j 0
          else 0 :=
  C7_alignment rvSpecTwoInsns rvStateAfterOrg "b" [] ⟨[147, 0, 16, 0, 19], 5⟩
    (by decide) (by decide) (by decide)

/-- Counterexample for C7 as stated: after emitting the 32-bit instruction
a and moving the cursor back to 1 with the bare-integer .org form, emitting
the 8-bit instruction b pads the cursor from 1 up to the 4-byte boundary,
but the skipped bytes keep the old instruction bytes: the final buffer has
16, not 0, at gap position 2. -/
theorem C7_gap_not_zeroed_cex :
    emit_flat_binary rvSpecTwoInsns
        (.Root [.Instruction "a" [], .Instruction ".org" [.Integer 1], .Instruction "b" []])
      = some (.ok [147, 0, 16, 0, 19])
    ∧ ([147, 0, 16, 0, 19].getD 2 0 : Nat) ≠ 0 := by
  exact ⟨by decide, by decide⟩

/-- C1 (code bug): the .org branch of emit_binary_recurse pattern-matches a
bare Node::Integer argument, but the grammar's argument() rule always wraps
instruction arguments in Node::Argument, so the parser-shaped argument
Argument(Integer 16) -- the shape the claim says must succeed -- is rejected
with InvalidArgumentType, while only the bare Integer shape, which the
parser never produces, moves the cursor and grows the buffer; the arity
checks behave as claimed. -/
theorem C1_org_argument_shape :
    emit_flat_binary RiscVSpec.new
        (.Root [.Instruction ".org" [.Argument (.Integer 16)]])
      = some (.error (.InvalidArgumentType ".org" 0))
    ∧ emit_flat_binary RiscVSpec.new (.Root [.Instruction ".org" [.Integer 16]])
      = some (.ok (List.replicate 16 0))
    ∧ emit_flat_binary RiscVSpec.new (.Root [.Instruction ".org" []])
      = some (.error (.InvalidArgumentCount ".org"))
    ∧ emit_flat_binary RiscVSpec.new (.Root [.Instruction ".ORG" [.Integer 8]])
      = some (.ok (List.replicate 8 0)) := by
  exact ⟨by decide, by decide, by decide, by decide⟩

/-- C5 (amended): after a successful load whose resulting register table
keeps unique indices consistent with the stored registers, and whose
registers have pairwise-disjoint name lists, every name of every register
resolves through the rebuilt lookup to that register's index, and
get_register_by_name returns that register.  Without the disjointness
hypothesis the claim fails: a later register with the same name overwrites
the lookup entry. -/
theorem C5_register_name_lookup (s0 : RiscVSpec) (doc : Toml)
    (hok : (load_single_toml s0 doc).2 = none)
    (hinv : RegInvariant (load_single_toml s0 doc).1.registers)
    (hdisj : PairwiseDisjointNames (load_single_toml s0 doc).1.registers) :
    ∀ p ∈ (load_single_toml s0 doc).1.registers, ∀ nm ∈ p.2.names,
      alGet (load_single_toml s0 doc).1.register_name_lookup nm = some p.2.index ∧
      ((load_single_toml s0 doc).1).get_register_by_name nm = some p.2 := by
  obtain ⟨s5, hload⟩ := load_single_toml_success_rebuild s0 doc hok
  rw [hload] at hinv hdisj ⊢
  unfold rebuildRegisterNameLookup at hinv hdisj ⊢
  dsimp only at hinv hdisj ⊢
  obtain ⟨hidx, hnd⟩ := hinv
  intro p hp nm hnm
  have hget := rebuildFold_get s5.registers [] hnd hdisj p hp nm hnm
  refine ⟨?_, ?_⟩
  · rw [hidx p hp]
    exact hget
  · unfold RiscVSpec.get_register_by_name RiscVSpec.get_register
    dsimp only
    rw [hget]
    exact alGet_mem_nodup s5.registers hnd p hp

/-- Witness for C5: rvDocTwoRegs gives registers 1 and 2 the distinct names
ra and sp; after the load, ra resolves to register 1. -/
theorem C5_register_name_lookup_witness :
    alGet (load_single_toml RiscVSpec.new rvDocTwoRegs).1.register_name_lookup "ra"
        = some ((⟨1, ["ra"], 0⟩ : Register).index)
    ∧ RiscVSpec.get_register_by_name (load_single_toml RiscVSpec.new rvDocTwoRegs).1 "ra"
        = some ⟨1, ["ra"], 0⟩ :=
  C5_register_name_lookup RiscVSpec.new rvDocTwoRegs (by decide) (by decide) (by decide)
    (1, ⟨1, ["ra"], 0⟩) (by decide) "ra" (by decide)

/-- Counterexample for C5 as stated: rvDocSharedRegName loads successfully
and stores register 1 with name a, yet looking a up returns register 2,
whose later insertion overwrote the lookup entry for register 1. -/
theorem C5_shared_name_cex :
    (load_single_toml RiscVSpec.new rvDocSharedRegName).2 = none
    ∧ (1, ⟨1, ["a"], 0⟩) ∈ (load_single_toml RiscVSpec.new rvDocSharedRegName).1.registers
    ∧ ¬ RiscVSpec.get_register_by_name (load_single_toml RiscVSpec.new rvDocSharedRegName).1
          "a" = some ⟨1, ["a"], 0⟩ := by
  exact ⟨by decide, by decide, by decide⟩

/-- Counterexample for C6 as stated: rvDocCaseCollision defines ADD and
add, both new relative to the empty spec (its instruction name lookup is
empty), yet the load fails with DuplicateInstruction "add" because the two
distinct keys collide after lowercasing within the same document. -/
theorem C6_case_collision_cex :
    (∀ kv ∈ instructionEntries rvDocCaseCollision,
        alGet (RiscVSpec.new).instruction_name_lookup (toAsciiLower kv.1) = none)
    ∧ (load_single_toml RiscVSpec.new rvDocCaseCollision).2
        = some (.DuplicateInstruction "add") := by
  exact ⟨by decide, by decide⟩

end Rvasm
